import Mathlib

/-!
Verification development for a multi-process key/value broker with an ORM
layer (plyvelmp).  The Lean definitions below are shallow embeddings of the
Python source files `lexoint.py`, `db.py`, `mdb.py` and `orm.py`:

* Lean `String` models Python `str`; keys of the underlying store are
  compared in lexicographic byte order (UTF-8 byte order coincides with
  code-point order, which `Char.toNat` exposes).
* `Nat` / `Int` model Python integers (unbounded, no overflow).
* Association lists model the LevelDB key space.
* Fallible Python code (constructors that raise, request servicing) returns
  `Except` / `Option`.
-/

namespace Plyvelmp

/-- Byte-order comparison of two characters (UTF-8 byte order equals
code-point order). -/
def charLt (a b : Char) : Bool := a.toNat < b.toNat

/-- Lexicographic byte order on character lists, the order in which LevelDB
compares keys and in which Python compares `str`/`bytes`. -/
def lexLt : List Char → List Char → Bool
  | [], [] => false
  | [], _ :: _ => true
  | _ :: _, [] => false
  | a :: as, b :: bs => if charLt a b then true else if charLt b a then false else lexLt as bs

/-- Lexicographic byte order on strings. -/
def strLt (s t : String) : Bool := lexLt s.data t.data

/-- The decimal digit character of `d < 10` (as produced by `repr` of an
`int` in Python, one character per digit). -/
def digitToChar : Nat → Char
  | 0 => '0'
  | 1 => '1'
  | 2 => '2'
  | 3 => '3'
  | 4 => '4'
  | 5 => '5'
  | 6 => '6'
  | 7 => '7'
  | 8 => '8'
  | 9 => '9'
  | _ => '?'

/-- Digit value of an ASCII decimal digit character, `none` otherwise. -/
def charToDigit (c : Char) : Option Nat :=
  if c = '0' then some 0 else if c = '1' then some 1 else if c = '2' then some 2
  else if c = '3' then some 3 else if c = '4' then some 4 else if c = '5' then some 5
  else if c = '6' then some 6 else if c = '7' then some 7 else if c = '8' then some 8
  else if c = '9' then some 9 else none

/-- Fuel-driven little-endian decimal digits (structural recursion so that
concrete inputs evaluate inside the kernel). -/
def natDigitsAux : Nat → Nat → List Nat
  | 0, _ => []
  | _ + 1, 0 => []
  | fuel + 1, m + 1 => (m + 1) % 10 :: natDigitsAux fuel ((m + 1) / 10)

/-- Little-endian decimal digits of `n` (empty for zero). -/
def natDigits (n : Nat) : List Nat := natDigitsAux n n

theorem natDigitsAux_eq : ∀ fuel n, n ≤ fuel → natDigitsAux fuel n = Nat.digits 10 n := by
  intro fuel
  induction fuel with
  | zero =>
    intro n hn
    have : n = 0 := by omega
    subst this
    simp [natDigitsAux]
  | succ fuel ih =>
    intro n hn
    cases n with
    | zero => simp [natDigitsAux]
    | succ m =>
      unfold natDigitsAux
      rw [ih ((m + 1) / 10) (by omega)]
      rw [← @Nat.digits_def' 10 (by norm_num) (m + 1) (by omega)]

theorem natDigits_eq (n : Nat) : natDigits n = Nat.digits 10 n :=
  natDigitsAux_eq n n (le_refl n)

/-- Most-significant-first decimal digits of `n`, matching the digit
sequence of `repr(n)` in Python for non-negative `n`. -/
def natReprDigits (n : Nat) : List Nat :=
  if n = 0 then [0] else (natDigits n).reverse

/-- Characters of `repr(n)` for a non-negative integer `n`. -/
def natReprChars (n : Nat) : List Char := (natReprDigits n).map digitToChar

/-- Model of Python `repr` on a non-negative `int`. -/
def pyNatRepr (n : Nat) : String := String.mk (natReprChars n)

/-- Model of Python `repr` on an `int` (a minus sign followed by the digits
when negative). -/
def pyIntRepr (v : Int) : String :=
  if v < 0 then String.mk ('-' :: natReprChars v.natAbs) else pyNatRepr v.toNat

/-- Model of `str.zfill w` on a sign-free string: left-pad with the zero
character up to width `w`; a longer string is returned unchanged. -/
def zfillChars (w : Nat) (l : List Char) : List Char := List.replicate (w - l.length) '0' ++ l

/-- Numeric value of a most-significant-first decimal digit list. -/
def msbVal (l : List Nat) : Nat := Nat.ofDigits 10 l.reverse

/-- Whitespace characters stripped by Python `int(str)`. -/
def isPySpace (c : Char) : Bool :=
  c = ' ' || c = '\t' || c = '\n' || c = '\r' || c = Char.ofNat 11 || c = Char.ofNat 12

/-- Continuation of the digit run of a Python integer literal: further
digits, with single underscores permitted between digits. -/
def parseDigitRun : List Char → Nat → Option Nat
  | [], acc => some acc
  | c :: rest, acc =>
    if c = '_' then
      match rest with
      | [] => none
      | c2 :: rest2 =>
        match charToDigit c2 with
        | some d => parseDigitRun rest2 (10 * acc + d)
        | none => none
    else
      match charToDigit c with
      | some d => parseDigitRun rest (10 * acc + d)
      | none => none

/-- Digit run of a Python integer literal: at least one digit, then
`parseDigitRun`. -/
def parseUDigits : List Char → Option Nat
  | [] => none
  | c :: rest =>
    match charToDigit c with
    | some d => parseDigitRun rest d
    | none => none

/-- Signed part of a Python integer literal, after whitespace stripping. -/
def pyParseSigned : List Char → Option Int
  | [] => none
  | c :: r =>
    if c = '+' then (parseUDigits r).map Int.ofNat
    else if c = '-' then (parseUDigits r).map (fun n => -(Int.ofNat n))
    else (parseUDigits (c :: r)).map Int.ofNat

/-- Model of Python `int(s)` on ASCII input: optional surrounding
whitespace, an optional sign, then a digit run with optional single
underscores between digits.  Anything else raises `ValueError` (`none`). -/
def pyParseInt (s : String) : Option Int :=
  pyParseSigned (((s.data.dropWhile isPySpace).reverse.dropWhile isPySpace).reverse)

/-- Argument forms given to the `LexoInt` constructor by this code base:
`None`, a string, or an integer (including another `LexoInt`). -/
inductive PyIntArg where
  | noneV
  | strV (s : String)
  | intV (v : Int)
deriving DecidableEq, Repr

/-- Python `int(arg)` as invoked by `LexoInt.__new__`: `None` is a
`TypeError`, a string goes through the integer-literal grammar, an integer
passes through unchanged. -/
def pyIntOf : PyIntArg → Option Int
  | .noneV => none
  | .strV s => pyParseInt s
  | .intV v => some v

/-- Python `size or 16`: a falsy size (absent or zero) defaults to 16. -/
def sizeOr16 : Option Nat → Nat
  | none => 16
  | some 0 => 16
  | some s => s

/-- The effective `size` computed by `LexoInt.__init__`: when the `size`
argument is falsy (`None` or `0`) and the literal is a string, the length of
the literal is used; a still-falsy size defaults to 16. -/
def lexoSizeOf (arg : PyIntArg) (size : Option Nat) : Nat :=
  sizeOr16 (match size, arg with
    | none, .strV t => some t.length
    | some 0, .strV t => some t.length
    | _, _ => size)

/-- Validation performed by `LexoInt.__init__` on the parsed value: the
value must be non-negative and the length of its decimal representation
must not exceed the effective size.  (The `denominator != 1` guard of the
source can never fire on an `int` value and is omitted.) -/
def lexoIntChecks (v : Int) (sz : Nat) : Except Unit (Int × Nat) :=
  if v < 0 then .error ()
  else if sz < (natReprChars v.toNat).length then .error ()
  else .ok (v, sz)

/-- Model of constructing `LexoInt(arg, size=size)` (`__new__` plus
`__init__`): `int(arg)` may fail with `TypeError`/`ValueError`; then the
value is validated against the effective size. -/
def lexoIntMk (arg : PyIntArg) (size : Option Nat) : Except Unit (Int × Nat) :=
  match pyIntOf arg with
  | none => .error ()
  | some v => lexoIntChecks v (lexoSizeOf arg size)

/-- Model of `LexoInt.__str__`: the decimal representation of the value,
zero-filled to the stored size. -/
def lexoStrOf (v : Int) (sz : Nat) : String := String.mk (zfillChars sz (pyIntRepr v).data)

/-- Model of `LexoInt + n` through the metaclass wrapper of `lexoint.py`:
the plain `int` result is re-wrapped as `type(self)(result, size=self.size)`
and so re-validated. -/
def lexoIntAdd (x : Int × Nat) (n : Int) : Except Unit (Int × Nat) :=
  lexoIntMk (.intV (x.1 + n)) (some x.2)

theorem charToDigit_lt_ten {c : Char} {d : Nat} (h : charToDigit c = some d) : d < 10 := by
  unfold charToDigit at h
  split_ifs at h
  all_goals first
    | exact Option.noConfusion h
    | (injection h with hd; omega)

theorem digitToChar_charToDigit {c : Char} {d : Nat} (h : charToDigit c = some d) :
    digitToChar d = c := by
  unfold charToDigit at h
  split_ifs at h
  all_goals first
    | exact Option.noConfusion h
    | (injection h with hd; subst hd; rename_i hc; subst hc; rfl)

theorem charToDigit_digitToChar {d : Nat} (h : d < 10) :
    charToDigit (digitToChar d) = some d := by
  interval_cases d <;> rfl

theorem charToDigit_isSome_not_space {c : Char} (h : (charToDigit c).isSome) :
    isPySpace c = false ∧ c ≠ '+' ∧ c ≠ '-' ∧ c ≠ '_' := by
  unfold charToDigit at h
  split_ifs at h
  all_goals first
    | (rename_i hc; subst hc; decide)
    | simp at h

theorem digitToChar_lt_iff :
    ∀ d : Nat, d < 10 → ∀ e : Nat, e < 10 →
      (charLt (digitToChar d) (digitToChar e) = true ↔ d < e) := by decide

theorem lexLt_irrefl : ∀ l : List Char, lexLt l l = false := by
  intro l
  induction l with
  | nil => rfl
  | cons a as ih => simp [lexLt, charLt, ih]

theorem lexLt_asymm : ∀ l m : List Char, lexLt l m = true → lexLt m l = false := by
  intro l
  induction l with
  | nil => intro m h; cases m <;> simp_all [lexLt]
  | cons a as ih =>
    intro m h
    cases m with
    | nil => simp_all [lexLt]
    | cons b bs =>
      simp only [lexLt] at h ⊢
      by_cases hab : charLt a b = true
      · have hba : charLt b a = false := by
          unfold charLt at hab ⊢
          simp only [decide_eq_true_eq] at hab
          simp only [decide_eq_false_iff_not]
          omega
        simp [hab, hba]
      · by_cases hba : charLt b a = true
        · rw [if_neg hab, if_pos hba] at h
          exact absurd h (by simp)
        · rw [if_neg hab, if_neg hba] at h
          rw [if_neg hba, if_neg hab]
          exact ih bs h

theorem lexLt_append_left :
    ∀ p xs ys : List Char, lexLt (p ++ xs) (p ++ ys) = lexLt xs ys := by
  intro p
  induction p with
  | nil => intro xs ys; rfl
  | cons a as ih =>
    intro xs ys
    simp only [List.cons_append, lexLt, lexLt_irrefl]
    have : charLt a a = false := by unfold charLt; simp
    simp [this, ih]

theorem msbVal_cons (d : Nat) (t : List Nat) :
    msbVal (d :: t) = d * 10 ^ t.length + msbVal t := by
  unfold msbVal
  rw [List.reverse_cons, Nat.ofDigits_append]
  simp [Nat.ofDigits_singleton]
  ring

theorem msbVal_lt_pow {l : List Nat} (h : ∀ d ∈ l, d < 10) : msbVal l < 10 ^ l.length := by
  unfold msbVal
  have hlt := @Nat.ofDigits_lt_base_pow_length 10 l.reverse (by norm_num)
    (fun x hx => h x (List.mem_reverse.mp hx))
  simpa using hlt

theorem msbVal_replicate_zero_append (k : Nat) (l : List Nat) :
    msbVal (List.replicate k 0 ++ l) = msbVal l := by
  unfold msbVal
  rw [List.reverse_append, List.reverse_replicate, Nat.ofDigits_append]
  have hz : Nat.ofDigits 10 (List.replicate k (0 : Nat)) = 0 := by
    induction k with
    | zero => simp [Nat.ofDigits]
    | succ k ih => simp [List.replicate_succ, Nat.ofDigits_cons, ih]
  simp [hz]

theorem natReprDigits_lt (n : Nat) : ∀ d ∈ natReprDigits n, d < 10 := by
  unfold natReprDigits
  rw [natDigits_eq]
  split
  · simp
  · intro d hd
    exact Nat.digits_lt_base (by norm_num) (List.mem_reverse.mp hd)

theorem msbVal_natReprDigits (n : Nat) : msbVal (natReprDigits n) = n := by
  unfold natReprDigits msbVal
  rw [natDigits_eq]
  split
  · simp_all [Nat.ofDigits]
  · rw [List.reverse_reverse]
    exact Nat.ofDigits_digits 10 n

theorem natReprDigits_ne_nil (n : Nat) : natReprDigits n ≠ [] := by
  unfold natReprDigits
  rw [natDigits_eq]
  split
  · simp
  · simp_all [Nat.digits_ne_nil_iff_ne_zero]

theorem natReprDigits_length_le {n W : Nat} (h1 : n < 10 ^ W) (h2 : 1 ≤ W) :
    (natReprDigits n).length ≤ W := by
  unfold natReprDigits
  rw [natDigits_eq]
  split
  · simpa
  · rw [List.length_reverse]
    rename_i hn
    rw [Nat.digits_len 10 n (by norm_num) hn]
    have hlog : Nat.log 10 n < W := Nat.log_lt_of_lt_pow hn h1
    omega

theorem natReprDigits_canonical {h : Nat} {t : List Nat}
    (hds : ∀ d ∈ h :: t, d < 10) (hh : 1 ≤ h) :
    natReprDigits (msbVal (h :: t)) = h :: t := by
  have hv : msbVal (h :: t) ≠ 0 := by
    rw [msbVal_cons]
    have hp : 1 ≤ 10 ^ t.length := Nat.one_le_pow _ _ (by norm_num)
    have : 1 * 1 ≤ h * 10 ^ t.length := Nat.mul_le_mul hh hp
    omega
  unfold natReprDigits
  rw [natDigits_eq, if_neg hv]
  unfold msbVal
  have hlast : ∀ (hne : (h :: t).reverse ≠ []), ((h :: t).reverse).getLast hne ≠ 0 := by
    intro hne
    have h1 : ((h :: t).reverse).getLast? = some h := by
      rw [List.getLast?_reverse]
      rfl
    have h2 : ((h :: t).reverse).getLast? = some (((h :: t).reverse).getLast hne) :=
      List.getLast?_eq_getLast _ hne
    rw [h1] at h2
    injection h2 with h3
    omega
  rw [Nat.digits_ofDigits 10 (by norm_num) _
    (fun x hx => hds x (List.mem_reverse.mp hx)) hlast]
  exact List.reverse_reverse _

theorem zfill_natReprDigits_msbVal :
    ∀ l : List Nat, (∀ d ∈ l, d < 10) → l ≠ [] →
      List.replicate (l.length - (natReprDigits (msbVal l)).length) 0 ++
        natReprDigits (msbVal l) = l := by
  intro l
  induction l with
  | nil => intro _ h; exact absurd rfl h
  | cons h t ih =>
    intro hds _
    by_cases hh : 1 ≤ h
    · rw [natReprDigits_canonical hds hh]
      simp
    · have h0 : h = 0 := by omega
      subst h0
      cases t with
      | nil => rfl
      | cons h2 t2 =>
        have hmv : msbVal (0 :: h2 :: t2) = msbVal (h2 :: t2) := by
          rw [msbVal_cons]; simp
        have hIH := ih (fun d hd => hds d (List.mem_cons_of_mem _ hd)) (by simp)
        have hlen : (natReprDigits (msbVal (h2 :: t2))).length ≤ (h2 :: t2).length := by
          have := congrArg List.length hIH
          simp only [List.length_append, List.length_replicate] at this
          omega
        rw [hmv]
        have harith : (0 :: h2 :: t2).length - (natReprDigits (msbVal (h2 :: t2))).length =
            ((h2 :: t2).length - (natReprDigits (msbVal (h2 :: t2))).length) + 1 := by
          simp only [List.length_cons] at hlen ⊢
          omega
        rw [harith, List.replicate_succ, List.cons_append, hIH]

/-- Boolean strict order on Nat used to mirror `lexLt` on digit lists. -/
def lexLtN : List Nat → List Nat → Bool
  | [], [] => false
  | [], _ :: _ => true
  | _ :: _, [] => false
  | a :: as, b :: bs => if a < b then true else if b < a then false else lexLtN as bs

theorem lexLt_map_digitToChar :
    ∀ xs ys : List Nat, (∀ d ∈ xs, d < 10) → (∀ d ∈ ys, d < 10) →
      lexLt (xs.map digitToChar) (ys.map digitToChar) = lexLtN xs ys := by
  intro xs
  induction xs with
  | nil => intro ys _ _; cases ys <;> rfl
  | cons a as ih =>
    intro ys hx hy
    cases ys with
    | nil => rfl
    | cons b bs =>
      have ha : a < 10 := hx a (by simp)
      have hb : b < 10 := hy b (by simp)
      simp only [List.map_cons, lexLt, lexLtN]
      have hiff := digitToChar_lt_iff a ha b hb
      have hiff2 := digitToChar_lt_iff b hb a ha
      by_cases hab : a < b
      · have : charLt (digitToChar a) (digitToChar b) = true := hiff.mpr hab
        simp [this, hab]
      · have h1 : charLt (digitToChar a) (digitToChar b) = false := by
          cases hcl : charLt (digitToChar a) (digitToChar b) with
          | false => rfl
          | true => exact absurd (hiff.mp hcl) hab
        by_cases hba : b < a
        · have : charLt (digitToChar b) (digitToChar a) = true := hiff2.mpr hba
          simp [h1, this, hab, hba]
        · have h2 : charLt (digitToChar b) (digitToChar a) = false := by
            cases hcl : charLt (digitToChar b) (digitToChar a) with
            | false => rfl
            | true => exact absurd (hiff2.mp hcl) hba
          simp only [h1, if_false, h2, hab, hba]
          exact ih bs (fun d hd => hx d (List.mem_cons_of_mem _ hd))
            (fun d hd => hy d (List.mem_cons_of_mem _ hd))

theorem lexLtN_of_msbVal_lt :
    ∀ xs ys : List Nat, xs.length = ys.length →
      (∀ d ∈ ys, d < 10) → msbVal xs < msbVal ys → lexLtN xs ys = true := by
  intro xs
  induction xs with
  | nil =>
    intro ys hlen _ hval
    cases ys with
    | nil => simp [msbVal] at hval
    | cons b bs => simp at hlen
  | cons a as ih =>
    intro ys hlen hy hval
    cases ys with
    | nil => simp at hlen
    | cons b bs =>
      simp only [List.length_cons, Nat.succ.injEq] at hlen
      simp only [lexLtN]
      by_cases hab : a < b
      · simp [hab]
      · by_cases hba : b < a
        · exfalso
          rw [msbVal_cons, msbVal_cons] at hval
          have hbs : msbVal bs < 10 ^ bs.length :=
            msbVal_lt_pow (fun d hd => hy d (List.mem_cons_of_mem _ hd))
          rw [hlen] at hval
          nlinarith
        · have heq : a = b := by omega
          subst heq
          rw [msbVal_cons, msbVal_cons, hlen] at hval
          have hv : msbVal as < msbVal bs := by omega
          rw [if_neg (lt_irrefl a), if_neg (lt_irrefl a)]
          exact ih bs hlen (fun d hd => hy d (List.mem_cons_of_mem _ hd)) hv

theorem zfillChars_natReprChars_eq_map {n W : Nat} :
    zfillChars W (natReprChars n) =
      (List.replicate (W - (natReprDigits n).length) 0 ++ natReprDigits n).map digitToChar := by
  unfold zfillChars natReprChars
  rw [List.map_append, List.map_replicate]
  simp [digitToChar]

theorem length_zfill_render {n W : Nat} (h1 : n < 10 ^ W) (h2 : 1 ≤ W) :
    (List.replicate (W - (natReprDigits n).length) 0 ++ natReprDigits n).length = W := by
  have hle := natReprDigits_length_le h1 h2
  simp only [List.length_append, List.length_replicate]
  omega

theorem msbVal_zfill_render (n W : Nat) :
    msbVal (List.replicate (W - (natReprDigits n).length) 0 ++ natReprDigits n) = n := by
  rw [msbVal_replicate_zero_append, msbVal_natReprDigits]

theorem digits_zfill_render (n W : Nat) :
    ∀ d ∈ List.replicate (W - (natReprDigits n).length) 0 ++ natReprDigits n, d < 10 := by
  intro d hd
  rcases List.mem_append.mp hd with h | h
  · have := List.eq_of_mem_replicate h
    omega
  · exact natReprDigits_lt n d h

theorem lexLt_zfill_of_lt {a b W : Nat} (hab : a < b) (hb : b < 10 ^ W) :
    lexLt (zfillChars W (natReprChars a)) (zfillChars W (natReprChars b)) = true := by
  have hW : 1 ≤ W := by
    by_contra hW
    have : W = 0 := by omega
    subst this
    simp at hb
    omega
  have ha : a < 10 ^ W := lt_trans hab hb
  rw [zfillChars_natReprChars_eq_map, zfillChars_natReprChars_eq_map]
  rw [lexLt_map_digitToChar _ _ (digits_zfill_render a W) (digits_zfill_render b W)]
  apply lexLtN_of_msbVal_lt
  · rw [length_zfill_render ha hW, length_zfill_render hb hW]
  · exact digits_zfill_render b W
  · rw [msbVal_zfill_render, msbVal_zfill_render]
    exact hab

theorem lexLt_zfill_iff {a b W : Nat} (ha : a < 10 ^ W) (hb : b < 10 ^ W) :
    (lexLt (zfillChars W (natReprChars a)) (zfillChars W (natReprChars b)) = true ↔ a < b) := by
  constructor
  · intro h
    by_contra hab
    rcases Nat.lt_or_ge b a with hba | hba
    · have := lexLt_zfill_of_lt hba ha
      have := lexLt_asymm _ _ this
      simp_all
    · have heq : a = b := by omega
      subst heq
      rw [lexLt_irrefl] at h
      exact absurd h (by simp)
  · intro h
    exact lexLt_zfill_of_lt h hb

theorem lexoStrOf_data (n W : Nat) :
    (lexoStrOf (n : Int) W).data = zfillChars W (natReprChars n) := by
  unfold lexoStrOf pyIntRepr pyNatRepr
  have : ¬ ((n : Int) < 0) := by omega
  rw [if_neg this]
  simp

/-- C9: LexoKey string order equals numeric order.  For natural numbers
`a < b` with `b` representable in `W` decimal digits, the `W`-wide
zero-padded rendering produced by `LexoInt.__str__` (modelled by
`lexoStrOf`) is strictly smaller in lexicographic byte order (`strLt`). -/
theorem C9_lexokey_order (a b W : Nat) (hab : a < b) (hb : b < 10 ^ W) :
    strLt (lexoStrOf (a : Int) W) (lexoStrOf (b : Int) W) = true := by
  unfold strLt
  rw [lexoStrOf_data, lexoStrOf_data]
  exact lexLt_zfill_of_lt hab hb

/-- Witness for C9 at a concrete input. -/
theorem C9_lexokey_order_witness :
    3 < 7 ∧ 7 < 10 ^ 4 ∧ strLt (lexoStrOf (3 : Int) 4) (lexoStrOf (7 : Int) 4) = true :=
  ⟨by norm_num, by norm_num, C9_lexokey_order 3 7 4 (by norm_num) (by norm_num)⟩

/-- Digit value of a character known to be a decimal digit. -/
def charDigitVal (c : Char) : Nat := (charToDigit c).getD 0

theorem dropWhile_eq_self_of_all {α : Type} {p : α → Bool} :
    ∀ l : List α, (∀ c ∈ l, p c = false) → l.dropWhile p = l := by
  intro l h
  cases l with
  | nil => rfl
  | cons c rest =>
    rw [List.dropWhile_cons, if_neg]
    simp [h c (by simp)]

theorem parseDigitRun_all_digits :
    ∀ (l : List Char) (acc : Nat), (∀ c ∈ l, (charToDigit c).isSome) →
      parseDigitRun l acc = some (l.foldl (fun a c => 10 * a + charDigitVal c) acc) := by
  intro l
  induction l with
  | nil => intro acc _; rfl
  | cons c rest ih =>
    intro acc hall
    have hc : (charToDigit c).isSome := hall c (by simp)
    have hns := charToDigit_isSome_not_space hc
    obtain ⟨d, hd⟩ := Option.isSome_iff_exists.mp hc
    unfold parseDigitRun
    rw [if_neg hns.2.2.2]
    simp only [hd, List.foldl_cons]
    have hval : charDigitVal c = d := by simp [charDigitVal, hd]
    rw [hval]
    exact ih _ (fun x hx => hall x (List.mem_cons_of_mem _ hx))

theorem parseUDigits_all_digits {l : List Char} (hne : l ≠ [])
    (hall : ∀ c ∈ l, (charToDigit c).isSome) :
    parseUDigits l = some (l.foldl (fun a c => 10 * a + charDigitVal c) 0) := by
  cases l with
  | nil => exact absurd rfl hne
  | cons c rest =>
    obtain ⟨d, hd⟩ := Option.isSome_iff_exists.mp (hall c (by simp))
    unfold parseUDigits
    simp only [hd, List.foldl_cons]
    rw [parseDigitRun_all_digits rest d (fun x hx => hall x (List.mem_cons_of_mem _ hx))]
    have hval : charDigitVal c = d := by simp [charDigitVal, hd]
    simp [hval]

theorem foldl_digits_msbVal :
    ∀ (dl : List Nat) (acc : Nat),
      dl.foldl (fun a d => 10 * a + d) acc = acc * 10 ^ dl.length + msbVal dl := by
  intro dl
  induction dl with
  | nil => intro acc; simp [msbVal, Nat.ofDigits]
  | cons d t ih =>
    intro acc
    simp only [List.foldl_cons, List.length_cons]
    rw [ih, msbVal_cons]
    ring

theorem foldl_chars_eq_msbVal (l : List Char) :
    l.foldl (fun a c => 10 * a + charDigitVal c) 0 = msbVal (l.map charDigitVal) := by
  rw [← List.foldl_map charDigitVal (fun a d => 10 * a + d) l 0]
  rw [foldl_digits_msbVal]
  simp

theorem pyParseInt_digit_string {s : String} (hne : s.data ≠ [])
    (hall : ∀ c ∈ s.data, (charToDigit c).isSome) :
    pyParseInt s = some ((msbVal (s.data.map charDigitVal) : Nat) : Int) := by
  have hnospace : ∀ c ∈ s.data, isPySpace c = false :=
    fun c hc => (charToDigit_isSome_not_space (hall c hc)).1
  have h1 : s.data.dropWhile isPySpace = s.data := dropWhile_eq_self_of_all _ hnospace
  have h2 : s.data.reverse.dropWhile isPySpace = s.data.reverse :=
    dropWhile_eq_self_of_all _ (fun c hc => hnospace c (List.mem_reverse.mp hc))
  unfold pyParseInt
  rw [h1, h2, List.reverse_reverse]
  obtain ⟨c, rest, hs⟩ : ∃ c rest, s.data = c :: rest := by
    cases hd : s.data with
    | nil => exact absurd hd hne
    | cons c rest => exact ⟨c, rest, rfl⟩
  rw [hs]
  have hcd : (charToDigit c).isSome := hall c (by rw [hs]; simp)
  have hns := charToDigit_isSome_not_space hcd
  have hall2 : ∀ x ∈ c :: rest, (charToDigit x).isSome := by rw [← hs]; exact hall
  simp only [pyParseSigned]
  rw [if_neg hns.2.1, if_neg hns.2.2.1]
  rw [parseUDigits_all_digits (by simp) hall2]
  rw [foldl_chars_eq_msbVal]
  rfl

theorem map_charDigitVal_lt {s : String} (hall : ∀ c ∈ s.data, (charToDigit c).isSome) :
    ∀ d ∈ s.data.map charDigitVal, d < 10 := by
  intro d hd
  obtain ⟨c, hc, hcd⟩ := List.mem_map.mp hd
  obtain ⟨k, hk⟩ := Option.isSome_iff_exists.mp (hall c hc)
  have : charDigitVal c = k := by simp [charDigitVal, hk]
  rw [← hcd, this]
  exact charToDigit_lt_ten hk

theorem map_digitToChar_charDigitVal {s : String}
    (hall : ∀ c ∈ s.data, (charToDigit c).isSome) :
    (s.data.map charDigitVal).map digitToChar = s.data := by
  rw [List.map_map]
  conv_rhs => rw [← List.map_id s.data]
  apply List.map_congr_left
  intro c hc
  obtain ⟨k, hk⟩ := Option.isSome_iff_exists.mp (hall c hc)
  have hv : charDigitVal c = k := by simp [charDigitVal, hk]
  simp only [Function.comp_apply, hv, List.map_id, id]
  exact digitToChar_charToDigit hk

theorem strMk_data : ∀ s : String, String.mk s.data = s := fun ⟨_⟩ => rfl

theorem string_length_data (s : String) : s.length = s.data.length := rfl

theorem lexoIntMk_none {arg : PyIntArg} (sz : Option Nat) (h : pyIntOf arg = none) :
    lexoIntMk arg sz = .error () := by
  unfold lexoIntMk
  rw [h]

theorem lexoIntMk_some {arg : PyIntArg} (sz : Option Nat) {v : Int} (h : pyIntOf arg = some v) :
    lexoIntMk arg sz = lexoIntChecks v (lexoSizeOf arg sz) := by
  unfold lexoIntMk
  rw [h]

theorem sizeOr16_succ (k : Nat) : sizeOr16 (some (k + 1)) = k + 1 := rfl

theorem lexoIntMk_ok_inv {a : PyIntArg} {sz : Option Nat} {v : Int} {w : Nat}
    (h : lexoIntMk a sz = .ok (v, w)) :
    0 ≤ v ∧ (natReprChars v.toNat).length ≤ w ∧ lexoSizeOf a sz = w := by
  cases hp : pyIntOf a with
  | none => rw [lexoIntMk_none sz hp] at h; exact Except.noConfusion h
  | some v0 =>
    rw [lexoIntMk_some sz hp] at h
    unfold lexoIntChecks at h
    split_ifs at h
    all_goals first
      | exact Except.noConfusion h
      | (injection h with h2
         injection h2 with h3 h4
         subst h3
         subst h4
         refine ⟨by omega, by omega, rfl⟩)

theorem pyIntOf_str (s : String) : pyIntOf (.strV s) = pyParseInt s := rfl

theorem lexoSizeOf_str_none {s : String} (h : s.length ≠ 0) :
    lexoSizeOf (.strV s) none = s.length := by
  have hstep : lexoSizeOf (.strV s) none = sizeOr16 (some s.length) := rfl
  rw [hstep]
  obtain ⟨k, hk⟩ : ∃ k, s.length = k + 1 := ⟨s.length - 1, by omega⟩
  rw [hk]
  exact sizeOr16_succ k

/-- Shared roundtrip fact: constructing a LexoInt from a pure-digit string
whose effective size equals the string length succeeds with the numeric
value of the digits, and formatting it reproduces the string. -/
theorem lexoParse_digit_generic (s : String) (h1 : s.data ≠ [])
    (h2 : ∀ c ∈ s.data, (charToDigit c).isSome) (sz : Option Nat)
    (hsz : lexoSizeOf (.strV s) sz = s.length) :
    lexoIntMk (.strV s) sz = .ok (((msbVal (s.data.map charDigitVal) : Nat) : Int), s.length) ∧
      lexoStrOf ((msbVal (s.data.map charDigitVal) : Nat) : Int) s.length = s := by
  have hdlnil : s.data.map charDigitVal ≠ [] := by simpa using h1
  have hdllt : ∀ d ∈ s.data.map charDigitVal, d < 10 := map_charDigitVal_lt h2
  have hz := zfill_natReprDigits_msbVal (s.data.map charDigitVal) hdllt hdlnil
  have hdllen : (s.data.map charDigitVal).length = s.length := by
    rw [List.length_map, string_length_data]
  have hlen0 : s.length ≠ 0 := by
    intro h0
    apply h1
    exact List.length_eq_zero.mp h0
  have hreprlen : (natReprDigits (msbVal (s.data.map charDigitVal))).length ≤ s.length := by
    have hcl := congrArg List.length hz
    simp only [List.length_append, List.length_replicate] at hcl
    omega
  refine ⟨?_, ?_⟩
  · have hval : pyIntOf (.strV s) = some ((msbVal (s.data.map charDigitVal) : Nat) : Int) :=
      pyParseInt_digit_string h1 h2
    have hrepr2 : (natReprChars (msbVal (s.data.map charDigitVal))).length ≤ s.length := by
      unfold natReprChars
      rw [List.length_map]
      exact hreprlen
    rw [lexoIntMk_some sz hval, hsz]
    unfold lexoIntChecks
    rw [if_neg (by omega)]
    rw [if_neg (by simp only [Int.toNat_natCast]; omega)]
  · have hdata : (lexoStrOf ((msbVal (s.data.map charDigitVal) : Nat) : Int) s.length).data =
        s.data := by
      rw [lexoStrOf_data, zfillChars_natReprChars_eq_map, ← hdllen, hz]
      exact map_digitToChar_charDigitVal h2
    calc lexoStrOf ((msbVal (s.data.map charDigitVal) : Nat) : Int) s.length
        = String.mk (lexoStrOf ((msbVal (s.data.map charDigitVal) : Nat) : Int) s.length).data :=
          (strMk_data _).symm
      _ = String.mk s.data := by rw [hdata]
      _ = s := strMk_data s

/-- C10: constructing a LexoKey from a decimal-digit string without an
explicit width takes the width from the string length, so formatting the
parsed key reproduces the string exactly, leading zeros included. -/
theorem C10_decimal_string_roundtrip (s : String) (h1 : s.data ≠ [])
    (h2 : ∀ c ∈ s.data, (charToDigit c).isSome) :
    ∃ v : Nat, lexoIntMk (.strV s) none = .ok ((v : Int), s.length) ∧
      lexoStrOf (v : Int) s.length = s := by
  have hlen0 : s.length ≠ 0 := by
    intro h0
    exact h1 (List.length_eq_zero.mp h0)
  obtain ⟨hmk, hstr⟩ := lexoParse_digit_generic s h1 h2 none (lexoSizeOf_str_none hlen0)
  exact ⟨msbVal (s.data.map charDigitVal), hmk, hstr⟩

/-- Witness for C10 at the concrete input "007". -/
theorem C10_decimal_string_roundtrip_witness :
    ∃ v : Nat, lexoIntMk (.strV "007") none = .ok ((v : Int), "007".length) ∧
      lexoStrOf (v : Int) "007".length = "007" :=
  C10_decimal_string_roundtrip "007" (by decide) (by decide)

/-- C5 counterexample: the constructor applied to `None` raises a
`TypeError` (it does not yield the zero key), and the string "+5", which
contains a non-digit character, is accepted (with value 5 and width 2). -/
theorem C5_parse_cex :
    lexoIntMk PyIntArg.noneV none = .error () ∧
    lexoIntMk (PyIntArg.strV "+5") none = .ok (5, 2) := by
  constructor
  · rfl
  · rfl

/-- C5 amended: parsing `None` raises; parsing from a string fails for any
input rejected by the Python integer-literal grammar (which, beyond plain
digits, permits surrounding whitespace, a sign and single interior
underscores), for any negative value, and whenever the decimal digit count
of the value exceeds the effective width; a successful parse never yields a
negative value, and its digit count fits the width. -/
theorem C5_parse_amended :
    (∀ sz, lexoIntMk .noneV sz = .error ()) ∧
    (∀ s sz, pyParseInt s = none → lexoIntMk (.strV s) sz = .error ()) ∧
    (∀ s sz v, pyParseInt s = some v → v < 0 → lexoIntMk (.strV s) sz = .error ()) ∧
    (∀ s sz v, pyParseInt s = some v → 0 ≤ v →
      lexoSizeOf (.strV s) sz < (natReprChars v.toNat).length →
      lexoIntMk (.strV s) sz = .error ()) ∧
    (∀ a sz v w, lexoIntMk a sz = .ok (v, w) → 0 ≤ v ∧ (natReprChars v.toNat).length ≤ w) := by
  refine ⟨fun sz => rfl, ?_, ?_, ?_, ?_⟩
  · intro s sz h
    exact lexoIntMk_none sz (by rw [pyIntOf_str, h])
  · intro s sz v h hneg
    rw [lexoIntMk_some sz (by rw [pyIntOf_str, h])]
    unfold lexoIntChecks
    rw [if_pos hneg]
  · intro s sz v h hpos hlen
    rw [lexoIntMk_some sz (show pyIntOf (.strV s) = some v by rw [pyIntOf_str, h])]
    unfold lexoIntChecks
    rw [if_neg (by omega), if_pos hlen]
  · intro a sz v w h
    exact ⟨(lexoIntMk_ok_inv h).1, (lexoIntMk_ok_inv h).2.1⟩

/-- Witness for C5 amended at concrete inputs. -/
theorem C5_parse_amended_witness :
    lexoIntMk (.strV "12a") none = .error () ∧ lexoIntMk (.strV "-5") none = .error () :=
  ⟨C5_parse_amended.2.1 "12a" none (by rfl),
   C5_parse_amended.2.2.1 "-5" none (-5) (by rfl) (by norm_num)⟩

/-! ### The ORM store model (`orm.py` on top of `db.py`)

The LevelDB key space is modelled as an association list with unique keys
(kept unique by construction: a put filters out the old binding).  Ordered
iteration sorts the keys in byte order on demand. -/

/-- Fixed ORM id width `LEXOINT_SIZE` of `orm.py`. -/
def LEXOINT_SIZE : Nat := 16

/-- Result of evaluating an index predicate against a record: the string
rendering of a successful result, a `None` result, or a raised exception. -/
inductive EvalRes where
  | val (s : String)
  | null
  | exc
deriving DecidableEq, Repr

/-- A record as handled by `_insert` / `_remove` / `_update`: the `id`
entry (absent/None, string, or integer), the managed `ckeys` entry, and an
opaque tag standing for the user payload that predicates inspect. -/
structure OrmRec where
  idArg : PyIntArg
  ckeys : Option (List String)
  payload : Nat
deriving DecidableEq, Repr

/-- Values stored by the ORM: predicate sources (strings), counters,
records, and `None`. -/
inductive OrmVal where
  | vstr (s : String)
  | vnat (n : Nat)
  | vrec (r : OrmRec)
  | vnone
deriving DecidableEq, Repr

/-- An index-key declaration of a model: a plain string (used verbatim; a
plain source is taken to not be an evaluable expression, as for "items"),
or a lambda with its captured source text and its evaluation behaviour. -/
inductive IKey where
  | plain (src : String)
  | lam (src : String) (f : OrmRec → EvalRes)

/-- Source text of an index key, as stored in the index namespace. -/
def ikeySrc : IKey → String
  | .plain s => s
  | .lam s _ => s

/-- The ckey computed for one index key against a record, following
`MDBOrm.__calculate_index`: a plain string indexes itself; a lambda is
evaluated, a `None` result giving the string "None" and a raised exception
giving `str(Ellipsis)`, which is the string "Ellipsis". -/
def ckeyOf (r : OrmRec) : IKey → String
  | .plain s => s
  | .lam _ f =>
    match f r with
    | .val s => s
    | .null => "None"
    | .exc => "Ellipsis"

/-- Model of `MDBOrm.__calculate_index`: the parallel lists of ckeys and of
source texts, one entry per element of the ikey set (entries are never
dropped). -/
def calcIndex (ikeysSet : List IKey) (r : OrmRec) : List String × List String :=
  (ikeysSet.map (ckeyOf r), ikeysSet.map ikeySrc)

/-- The key/value store (unique keys by construction). -/
abbrev Store := List (String × OrmVal)

/-- Model of `_DB.get` (through the broker): the stored value, if any. -/
def storeGet (st : Store) (k : String) : Option OrmVal :=
  (List.find? (fun p => p.1 == k) st).map (fun p => p.2)

/-- Model of `_DB.put`: replace any existing binding. -/
def storePut (st : Store) (k : String) (v : OrmVal) : Store :=
  List.filter (fun p => p.1 != k) st ++ [(k, v)]

/-- Model of `_DB.delete`: deleting a missing key is a no-op. -/
def storeDel (st : Store) (k : String) : Store :=
  List.filter (fun p => p.1 != k) st

/-- One operation of a write batch. -/
inductive BatchOp where
  | put (k : String) (v : OrmVal)
  | del (k : String)
deriving DecidableEq, Repr

/-- Key an operation acts on. -/
def opKey : BatchOp → String
  | .put k _ => k
  | .del k => k

/-- Apply one batch operation. -/
def applyOp (st : Store) : BatchOp → Store
  | .put k v => storePut st k v
  | .del k => storeDel st k

/-- Model of an atomic `write_batch`: all operations applied in order, as
one store update. -/
def applyBatch (st : Store) (ops : List BatchOp) : Store := ops.foldl applyOp st

/-- First-of-two choice on optional batch operations. -/
def orElseOpt (a b : Option BatchOp) : Option BatchOp :=
  match a with
  | some o => some o
  | none => b

/-- The last operation of a batch acting on key `k`, if any (later
operations override earlier ones). -/
def lastOpOn (ops : List BatchOp) (k : String) : Option BatchOp :=
  match ops with
  | [] => none
  | op :: rest => orElseOpt (lastOpOn rest k) (if opKey op == k then some op else none)

/-- Result of the last operation on a key, with a fallback for keys the
batch does not touch. -/
def opResult (o : Option BatchOp) (dflt : Option OrmVal) : Option OrmVal :=
  match o with
  | some (.put _ v) => some v
  | some (.del _) => none
  | none => dflt

theorem lastOpOn_nil (k : String) : lastOpOn [] k = none := rfl

theorem lastOpOn_cons (op : BatchOp) (rest : List BatchOp) (k : String) :
    lastOpOn (op :: rest) k =
      orElseOpt (lastOpOn rest k) (if opKey op == k then some op else none) := rfl

theorem orElseOpt_none_right (a : Option BatchOp) : orElseOpt a none = a := by
  cases a <;> rfl

theorem orElseOpt_assoc (a b c : Option BatchOp) :
    orElseOpt (orElseOpt a b) c = orElseOpt a (orElseOpt b c) := by
  cases a <;> rfl

theorem find?_filter_of_imp {α : Type} (l : List α) (p q : α → Bool)
    (h : ∀ x, p x = true → q x = true) :
    (l.filter q).find? p = l.find? p := by
  induction l with
  | nil => rfl
  | cons a t ih =>
    rw [List.filter_cons]
    by_cases hq : q a = true
    · rw [if_pos hq, List.find?_cons, List.find?_cons]
      cases hp : p a
      · exact ih
      · rfl
    · rw [if_neg hq, ih, List.find?_cons]
      cases hp : p a
      · rfl
      · exact absurd (h a hp) hq

theorem storeGet_put_self (st : Store) (k : String) (v : OrmVal) :
    storeGet (storePut st k v) k = some v := by
  unfold storeGet storePut
  rw [List.find?_append]
  have hnone : List.find? (fun p => p.1 == k) (List.filter (fun p => p.1 != k) st) = none := by
    rw [List.find?_eq_none]
    intro x hx
    have := (List.mem_filter.mp hx).2
    simp only [bne_iff_ne] at this
    simp [this]
  rw [hnone]
  simp [List.find?_cons]

theorem storeGet_put_ne (st : Store) (k k2 : String) (v : OrmVal) (h : k2 ≠ k) :
    storeGet (storePut st k v) k2 = storeGet st k2 := by
  unfold storeGet storePut
  rw [List.find?_append]
  rw [find?_filter_of_imp st _ _ (by
    intro x hx
    simp only [beq_iff_eq] at hx
    simp only [bne_iff_ne]
    rw [hx]
    exact h)]
  have hsingle : List.find? (fun p => p.1 == k2) [(k, v)] = none := by
    rw [List.find?_eq_none]
    intro x hx
    simp only [List.mem_singleton] at hx
    subst hx
    simp only [beq_iff_eq]
    exact fun he => h he.symm
  rw [hsingle]
  cases List.find? (fun p => p.1 == k2) st <;> rfl

theorem storeGet_del_self (st : Store) (k : String) :
    storeGet (storeDel st k) k = none := by
  unfold storeGet storeDel
  have hnone : List.find? (fun p => p.1 == k) (List.filter (fun p => p.1 != k) st) = none := by
    rw [List.find?_eq_none]
    intro x hx
    have := (List.mem_filter.mp hx).2
    simp only [bne_iff_ne] at this
    simp [this]
  rw [hnone]
  rfl

theorem storeGet_del_ne (st : Store) (k k2 : String) (h : k2 ≠ k) :
    storeGet (storeDel st k) k2 = storeGet st k2 := by
  unfold storeGet storeDel
  rw [find?_filter_of_imp st _ _ (by
    intro x hx
    simp only [beq_iff_eq] at hx
    simp only [bne_iff_ne]
    rw [hx]
    exact h)]

theorem storeGet_applyOp_self (st : Store) (op : BatchOp) :
    storeGet (applyOp st op) (opKey op) =
      (match op with
       | .put _ v => some v
       | .del _ => none) := by
  cases op with
  | put k v => exact storeGet_put_self st k v
  | del k => exact storeGet_del_self st k

theorem storeGet_applyOp_ne (st : Store) (op : BatchOp) (k2 : String) (h : k2 ≠ opKey op) :
    storeGet (applyOp st op) k2 = storeGet st k2 := by
  cases op with
  | put k v => exact storeGet_put_ne st k k2 v h
  | del k => exact storeGet_del_ne st k k2 h

theorem storeGet_applyBatch :
    ∀ (ops : List BatchOp) (st : Store) (k : String),
      storeGet (applyBatch st ops) k = opResult (lastOpOn ops k) (storeGet st k) := by
  intro ops
  induction ops with
  | nil => intro st k; rfl
  | cons op rest ih =>
    intro st k
    have hstep : applyBatch st (op :: rest) = applyBatch (applyOp st op) rest := rfl
    rw [hstep, ih, lastOpOn_cons]
    cases hl : lastOpOn rest k with
    | some o => cases o <;> rfl
    | none =>
      show storeGet (applyOp st op) k =
        opResult (orElseOpt none (if opKey op == k then some op else none)) (storeGet st k)
      by_cases hk : opKey op = k
      · have hbeq : (opKey op == k) = true := beq_iff_eq.mpr hk
        rw [hbeq]
        cases op with
        | put k2 v =>
          have hk2 : k2 = k := hk
          subst hk2
          simp [applyOp, storeGet_put_self, opResult, orElseOpt]
        | del k2 =>
          have hk2 : k2 = k := hk
          subst hk2
          simp [applyOp, storeGet_del_self, opResult, orElseOpt]
      · have hbeq : (opKey op == k) = false := by
          simp only [beq_eq_false_iff_ne]
          exact hk
        rw [hbeq]
        rw [storeGet_applyOp_ne st op k (fun he => hk he.symm)]
        rfl

theorem lastOpOn_append (l1 l2 : List BatchOp) (k : String) :
    lastOpOn (l1 ++ l2) k = orElseOpt (lastOpOn l2 k) (lastOpOn l1 k) := by
  induction l1 with
  | nil =>
    rw [List.nil_append, lastOpOn_nil, orElseOpt_none_right]
  | cons op rest ih =>
    rw [List.cons_append, lastOpOn_cons, ih, orElseOpt_assoc, lastOpOn_cons]

theorem str_data_inj : ∀ {s t : String}, s.data = t.data → s = t := by
  intro s t h
  cases s
  cases t
  cases h
  rfl

/-- Normalized table name of the ORM entry points: a trailing dot is added
when missing (`if not table.endswith(chr(46)): table += chr(46)`). -/
def normTable (t : String) : String :=
  if t.data.getLast? = some '.' then t else t ++ "."

/-- The table name without the trailing dot, Python `table[:-1]`. -/
def tblBase (t : String) : String := String.mk (normTable t).data.dropLast

theorem normTable_of_dot {t : String} (h : t.data.getLast? = some '.') :
    normTable t = t := by
  unfold normTable
  rw [if_pos h]

theorem normTable_of_not_dot {t : String} (h : ¬ t.data.getLast? = some '.') :
    normTable t = t ++ "." := by
  unfold normTable
  rw [if_neg h]

theorem normTable_data (t : String) :
    (normTable t).data = (tblBase t).data ++ ['.'] := by
  by_cases h : t.data.getLast? = some '.'
  · have hne : t.data ≠ [] := by
      intro h0
      rw [h0] at h
      exact Option.noConfusion h
    have hgl : t.data.getLast hne = '.' := by
      have h2 := List.getLast?_eq_getLast t.data hne
      rw [h] at h2
      exact (Option.some.inj h2).symm
    show (normTable t).data = (String.mk (normTable t).data.dropLast).data ++ ['.']
    rw [normTable_of_dot h]
    show t.data = t.data.dropLast ++ ['.']
    conv_lhs => rw [← List.dropLast_append_getLast hne, hgl]
  · show (normTable t).data = (String.mk (normTable t).data.dropLast).data ++ ['.']
    rw [normTable_of_not_dot h]
    show (t ++ ".").data = (t ++ ".").data.dropLast ++ ['.']
    rw [String.data_append]
    have hdot : (".").data = ['.'] := rfl
    rw [hdot, List.dropLast_concat]

/-- Row key `table + lexocount` of `orm.py`. -/
def rowKeyOf (t lex : String) : String := normTable t ++ lex

/-- Index key `table[:-1] + "s." + ckey + "." + lexocount` of `orm.py`. -/
def idxKeyOf (t ck lex : String) : String := tblBase t ++ "s." ++ ck ++ "." ++ lex

/-- Meta key `table[:-1] + "#wcount"` of `orm.py`. -/
def wcountKeyOf (t : String) : String := tblBase t ++ "#wcount"

theorem rowKeyOf_data (t lex : String) :
    (rowKeyOf t lex).data = (tblBase t).data ++ '.' :: lex.data := by
  unfold rowKeyOf
  rw [String.data_append, normTable_data, List.append_assoc]
  rfl

theorem idxKeyOf_data (t ck lex : String) :
    (idxKeyOf t ck lex).data =
      (tblBase t).data ++ 's' :: '.' :: (ck.data ++ '.' :: lex.data) := by
  unfold idxKeyOf
  simp only [String.data_append, List.append_assoc]
  rfl

theorem wcountKeyOf_data (t : String) :
    (wcountKeyOf t).data = (tblBase t).data ++ '#' :: "wcount".data := by
  unfold wcountKeyOf
  rw [String.data_append]

theorem rowKey_ne_wcountKey (t lex : String) : rowKeyOf t lex ≠ wcountKeyOf t := by
  intro h
  have hd := congrArg String.data h
  rw [rowKeyOf_data, wcountKeyOf_data] at hd
  have := List.append_cancel_left hd
  exact absurd (List.head_eq_of_cons_eq this) (by decide)

theorem idxKey_ne_wcountKey (t ck lex : String) : idxKeyOf t ck lex ≠ wcountKeyOf t := by
  intro h
  have hd := congrArg String.data h
  rw [idxKeyOf_data, wcountKeyOf_data] at hd
  have := List.append_cancel_left hd
  exact absurd (List.head_eq_of_cons_eq this) (by decide)

theorem idxKey_ne_rowKey (t ck lex lex2 : String) : idxKeyOf t ck lex ≠ rowKeyOf t lex2 := by
  intro h
  have hd := congrArg String.data h
  rw [idxKeyOf_data, rowKeyOf_data] at hd
  have := List.append_cancel_left hd
  exact absurd (List.head_eq_of_cons_eq this) (by decide)

theorem idxKey_inj_ck {t ck1 ck2 lex : String}
    (h : idxKeyOf t ck1 lex = idxKeyOf t ck2 lex) : ck1 = ck2 := by
  have hd := congrArg String.data h
  rw [idxKeyOf_data, idxKeyOf_data] at hd
  have h1 := List.append_cancel_left hd
  have h2 := List.tail_eq_of_cons_eq (List.tail_eq_of_cons_eq h1)
  exact str_data_inj (List.append_cancel_right h2)

/-! ### Ordered iteration (`_DB.iterator` through the broker) -/

/-- Byte-order comparison, non-strict. -/
def strLe (s t : String) : Bool := !(strLt t s)

/-- Insertion into a key-sorted association list. -/
def insertSorted (p : String × OrmVal) : List (String × OrmVal) → List (String × OrmVal)
  | [] => [p]
  | q :: rest => if strLe p.1 q.1 then p :: q :: rest else q :: insertSorted p rest

/-- The store in LevelDB iteration order (ascending byte order of keys). -/
def sortByKey (l : List (String × OrmVal)) : List (String × OrmVal) :=
  l.foldr insertSorted []

/-- Python `bytes.startswith`. -/
def strStartsWith (s pfx : String) : Bool := decide (s.data.take pfx.data.length = pfx.data)

/-- Drop the first `n` characters (`key.decode()[prefix_len:]`). -/
def strDrop (s : String) (n : Nat) : String := String.mk (s.data.drop n)

/-- Model of `_DB.iterator` on a snapshot of the store.  Forward iteration
with a seek starts at the first key not below `prefix + seek`; reverse
iteration with a seek starts strictly below `prefix + seek` (plyvel seeks
to the first key at or past the target and then steps back once for
reverse iterators), and proceeds downward.  The generator then skips keys
that do not start with the prefix and yields `(suffix, value)` pairs. -/
def dbIter (st : Store) (pfx : String) (rev : Bool) (seek : Option String) :
    List (String × OrmVal) :=
  let sorted : List (String × OrmVal) := sortByKey st
  let sel : List (String × OrmVal) :=
    match seek with
    | none => if rev then sorted.reverse else sorted
    | some sk =>
      if rev then (sorted.filter (fun p => strLt p.1 (pfx ++ sk))).reverse
      else sorted.filter (fun p => !(strLt p.1 (pfx ++ sk)))
  (sel.filter (fun p => strStartsWith p.1 pfx)).map (fun p => (strDrop p.1 pfx.length, p.2))

/-- Model of `MDBOrm._islexointstring`: a string of exactly
`LEXOINT_SIZE` decimal digits. -/
def islexointstring (s : String) : Bool :=
  decide (s.length = LEXOINT_SIZE) && s.data.all (fun c => (charToDigit c).isSome)

/-- Reading the write counter `table[:-1] + "#wcount"`: `get(...) or 0`
never raises (missing and falsy values read as zero), but the later
`wcount + 1` raises a `TypeError` on a truthy non-integer, which this model
reports at the point the sum is formed. -/
def wcountRead (st : Store) (t : String) : Except Unit Nat :=
  match storeGet st (wcountKeyOf t) with
  | none => .ok 0
  | some .vnone => .ok 0
  | some (.vnat n) => .ok n
  | some (.vstr s) => if s.length = 0 then .ok 0 else .error ()
  | some (.vrec _) => .error ()

/-- The string of `LEXOINT_SIZE` zero characters. -/
def zeros16 : String := String.mk (List.replicate LEXOINT_SIZE '0')

/-- Model of `MDBOrm._lexocount`: reverse-iterate the row namespace, take
the first suffix that is a LexoInt string, and return it incremented by
one (zero-filled); an empty table yields `str(LexoInt(zeros))`.  The
increment re-validates the width and can raise on overflow. -/
def lexocountModel (st : Store) (t : String) : Except Unit String :=
  match (dbIter st (normTable t) true none).find? (fun p => islexointstring p.1) with
  | none =>
    match lexoIntMk (.strV zeros16) none with
    | .error e => .error e
    | .ok x => .ok (lexoStrOf x.1 x.2)
  | some p =>
    match lexoIntMk (.strV p.1) (some LEXOINT_SIZE) with
    | .error e => .error e
    | .ok x =>
      match lexoIntAdd x 1 with
      | .error e => .error e
      | .ok y => .ok (lexoStrOf y.1 y.2)

/-- The batch written by `_remove`: delete every index entry named by the
stored ckeys, delete the row, bump the write counter. -/
def removeOps (t lex : String) (cks : List String) (w : Nat) : List BatchOp :=
  cks.map (fun ck => BatchOp.del (idxKeyOf t ck lex))
    ++ [BatchOp.del (rowKeyOf t lex), BatchOp.put (wcountKeyOf t) (.vnat (w + 1))]

/-- Model of `MDBOrm._remove`: an unparseable id or a missing row is a
silent no-op; otherwise the stored ckeys drive one atomic batch deleting
every index entry and the row and bumping the write counter. -/
def removeModel (st : Store) (t : String) (r : OrmRec) : Except Unit Store :=
  match lexoIntMk r.idArg (some LEXOINT_SIZE) with
  | .error _ => .ok st
  | .ok x =>
    match storeGet st (rowKeyOf t (lexoStrOf x.1 x.2)) with
    | none => .ok st
    | some (.vrec r0) =>
      match r0.ckeys with
      | none => .error ()
      | some cks =>
        match wcountRead st t with
        | .error e => .error e
        | .ok w => .ok (applyBatch st (removeOps t (lexoStrOf x.1 x.2) cks w))
    | some _ => .error ()

/-- Formation of `ikeys_set` in `_insert`: predicate sources de-duplicated
with the constant "items" always added (the Python `set` iteration order is
unspecified; the model keeps first-occurrence order).  Lambda sources are
taken to have passed the pure-lambda-source check. -/
def mkIkeysSet (iks : List IKey) : List IKey :=
  (IKey.plain "items" :: iks).foldl
    (fun acc ik => if acc.any (fun j => ikeySrc j == ikeySrc ik) then acc else acc ++ [ik]) []

/-- The batch written by `_insert`: one index entry per (ckey, source)
pair, then the row, then the write counter. -/
def insertOps (t lex : String) (cks srcs : List String) (r2 : OrmRec) (w : Nat) :
    List BatchOp :=
  ((cks.zip srcs).map (fun p => BatchOp.put (idxKeyOf t p.1 lex) (.vstr p.2)))
    ++ [BatchOp.put (rowKeyOf t lex) (.vrec r2), BatchOp.put (wcountKeyOf t) (.vnat (w + 1))]

/-- The record as seen by the index predicates during `_insert`: the id is
set to the allocated lexocount and any caller-supplied `ckeys` entry is
removed before the index is calculated. -/
def insRecOf (r : OrmRec) (lex : String) : OrmRec :=
  { r with idArg := PyIntArg.strV lex, ckeys := none }

/-- The record as stored by `_insert`: the calculated ckeys are put back
into the record before the batch. -/
def insRec2Of (r : OrmRec) (lex : String) (iks : List IKey) : OrmRec :=
  { insRecOf r lex with ckeys := some ((calcIndex (mkIkeysSet iks) (insRecOf r lex)).1) }

/-- Model of `MDBOrm._insert`: allocate the next id, set it in the record,
strip `ckeys`, materialize the index, store the ckeys in the record, and
apply one atomic batch. -/
def insertModel (st : Store) (t : String) (iks : List IKey) (r : OrmRec) :
    Except Unit (Store × OrmRec) :=
  match lexocountModel st t with
  | .error e => .error e
  | .ok lex =>
    match wcountRead st t with
    | .error e => .error e
    | .ok w =>
      .ok (applyBatch st
            (insertOps t lex ((calcIndex (mkIkeysSet iks) (insRecOf r lex)).1)
              ((calcIndex (mkIkeysSet iks) (insRecOf r lex)).2)
              (insRec2Of r lex iks) w),
          insRec2Of r lex iks)

/-- C6 counterexample: a predicate that raises produces the ckey
"Ellipsis" (the `str` rendering of the `Ellipsis` sentinel assigned by the
handler), not the three-character literal "...". -/
theorem C6_sentinel_cex :
    (calcIndex [IKey.lam "lambda m: boom(m)" (fun _ => EvalRes.exc)]
        ⟨PyIntArg.noneV, none, 0⟩).1 = ["Ellipsis"] ∧
    (calcIndex [IKey.lam "lambda m: boom(m)" (fun _ => EvalRes.exc)]
        ⟨PyIntArg.noneV, none, 0⟩).1 ≠ ["..."] :=
  ⟨rfl, by decide⟩

/-- C6 amended: during index materialization a raising predicate produces
the ckey "Ellipsis" (the string rendering of the Ellipsis sentinel) and a
predicate returning null produces the literal string "None"; in both cases
the entry is still indexed, so the number of ckeys always equals the number
of predicate sources. -/
theorem C6_sentinel_amended (ks : List IKey) (r : OrmRec) :
    (calcIndex ks r).1.length = ks.length ∧
    (calcIndex ks r).1 = ks.map (ckeyOf r) ∧
    (∀ src f, f r = EvalRes.exc → ckeyOf r (.lam src f) = "Ellipsis") ∧
    (∀ src f, f r = EvalRes.null → ckeyOf r (.lam src f) = "None") := by
  refine ⟨by simp [calcIndex], rfl, ?_, ?_⟩
  · intro src f h
    show (match f r with
      | EvalRes.val s => s
      | EvalRes.null => "None"
      | EvalRes.exc => "Ellipsis") = "Ellipsis"
    rw [h]
  · intro src f h
    show (match f r with
      | EvalRes.val s => s
      | EvalRes.null => "None"
      | EvalRes.exc => "Ellipsis") = "None"
    rw [h]

/-- Witness for C6 amended at a concrete input. -/
theorem C6_sentinel_amended_witness :
    ckeyOf ⟨PyIntArg.noneV, none, 0⟩ (.lam "lambda m: m.x" (fun _ => EvalRes.null)) = "None" :=
  (C6_sentinel_amended [] ⟨PyIntArg.noneV, none, 0⟩).2.2.2 "lambda m: m.x"
    (fun _ => EvalRes.null) rfl

theorem lastOpOn_pair (a b : BatchOp) (k : String) :
    lastOpOn [a, b] k =
      (if opKey b == k then some b else if opKey a == k then some a else none) := by
  rw [lastOpOn_cons, lastOpOn_cons, lastOpOn_nil]
  by_cases hb : (opKey b == k) = true
  · rw [hb]
    simp [orElseOpt]
  · rw [Bool.not_eq_true] at hb
    rw [hb]
    by_cases ha : (opKey a == k) = true
    · rw [ha]
      simp [orElseOpt]
    · rw [Bool.not_eq_true] at ha
      rw [ha]
      simp [orElseOpt]

theorem lastOpOn_map_del_none {α : Type} (ks : List α) (keyFn : α → String) (k : String)
    (h : ∀ ik ∈ ks, keyFn ik ≠ k) :
    lastOpOn (ks.map (fun i => BatchOp.del (keyFn i))) k = none := by
  induction ks with
  | nil => rfl
  | cons a t ih =>
    rw [List.map_cons, lastOpOn_cons, ih (fun ik hik => h ik (List.mem_cons_of_mem _ hik))]
    have : (opKey (BatchOp.del (keyFn a)) == k) = false := by
      simp only [beq_eq_false_iff_ne]
      exact h a (by simp)
    rw [this]
    rfl

theorem lastOpOn_map_del_mem {α : Type} (ks : List α) (keyFn : α → String) (k : String)
    (h : ∃ ik ∈ ks, keyFn ik = k) :
    lastOpOn (ks.map (fun i => BatchOp.del (keyFn i))) k = some (BatchOp.del k) := by
  induction ks with
  | nil => simp at h
  | cons a t ih =>
    rw [List.map_cons, lastOpOn_cons]
    by_cases ht : ∃ ik ∈ t, keyFn ik = k
    · rw [ih ht]
      rfl
    · have hall : ∀ ik ∈ t, keyFn ik ≠ k := by
        intro ik hik he
        exact ht ⟨ik, hik, he⟩
      rw [lastOpOn_map_del_none t keyFn k hall]
      have ha : keyFn a = k := by
        rcases h with ⟨ik, hik, he⟩
        rcases List.mem_cons.mp hik with hh | hh
        · rw [← hh]; exact he
        · exact absurd he (hall ik hh)
      have : (opKey (BatchOp.del (keyFn a)) == k) = true := by
        simp only [beq_iff_eq]
        exact ha
      rw [this]
      show some (BatchOp.del (keyFn a)) = some (BatchOp.del k)
      rw [ha]

theorem lastOpOn_map_put_none {α : Type} (ks : List α) (keyFn : α → String)
    (valFn : α → OrmVal) (k : String) (h : ∀ ik ∈ ks, keyFn ik ≠ k) :
    lastOpOn (ks.map (fun i => BatchOp.put (keyFn i) (valFn i))) k = none := by
  induction ks with
  | nil => rfl
  | cons a t ih =>
    rw [List.map_cons, lastOpOn_cons, ih (fun ik hik => h ik (List.mem_cons_of_mem _ hik))]
    have : (opKey (BatchOp.put (keyFn a) (valFn a)) == k) = false := by
      simp only [beq_eq_false_iff_ne]
      exact h a (by simp)
    rw [this]
    rfl

theorem lastOpOn_map_put_mem {α : Type} (ks : List α) (keyFn : α → String)
    (valFn : α → OrmVal) (k : String) (h : ∃ ik ∈ ks, keyFn ik = k) :
    ∃ ik2 ∈ ks, keyFn ik2 = k ∧
      lastOpOn (ks.map (fun i => BatchOp.put (keyFn i) (valFn i))) k =
        some (BatchOp.put k (valFn ik2)) := by
  induction ks with
  | nil => simp at h
  | cons a t ih =>
    by_cases ht : ∃ ik ∈ t, keyFn ik = k
    · obtain ⟨ik2, hmem, hkey, hlast⟩ := ih ht
      refine ⟨ik2, List.mem_cons_of_mem _ hmem, hkey, ?_⟩
      rw [List.map_cons, lastOpOn_cons, hlast]
      rfl
    · have hall : ∀ ik ∈ t, keyFn ik ≠ k := by
        intro ik hik he
        exact ht ⟨ik, hik, he⟩
      have ha : keyFn a = k := by
        rcases h with ⟨ik, hik, he⟩
        rcases List.mem_cons.mp hik with hh | hh
        · rw [← hh]; exact he
        · exact absurd he (hall ik hh)
      refine ⟨a, by simp, ha, ?_⟩
      rw [List.map_cons, lastOpOn_cons, lastOpOn_map_put_none t keyFn valFn k hall]
      have : (opKey (BatchOp.put (keyFn a) (valFn a)) == k) = true := by
        simp only [beq_iff_eq]
        exact ha
      rw [this]
      show some (BatchOp.put (keyFn a) (valFn a)) = some (BatchOp.put k (valFn a))
      rw [ha]

theorem removeOps_get_row (st : Store) (t lex : String) (cks : List String) (w : Nat) :
    storeGet (applyBatch st (removeOps t lex cks w)) (rowKeyOf t lex) = none := by
  rw [storeGet_applyBatch]
  unfold removeOps
  rw [lastOpOn_append, lastOpOn_pair]
  have h1 : (opKey (BatchOp.put (wcountKeyOf t) (.vnat (w + 1))) == rowKeyOf t lex) = false := by
    simp only [beq_eq_false_iff_ne]
    exact fun he => rowKey_ne_wcountKey t lex he.symm
  have h2 : (opKey (BatchOp.del (rowKeyOf t lex)) == rowKeyOf t lex) = true := by
    simp [opKey]
  rw [h1, h2]
  rfl

theorem removeOps_get_wcount (st : Store) (t lex : String) (cks : List String) (w : Nat) :
    storeGet (applyBatch st (removeOps t lex cks w)) (wcountKeyOf t) =
      some (.vnat (w + 1)) := by
  rw [storeGet_applyBatch]
  unfold removeOps
  rw [lastOpOn_append, lastOpOn_pair]
  have h1 : (opKey (BatchOp.put (wcountKeyOf t) (.vnat (w + 1))) == wcountKeyOf t) = true := by
    simp [opKey]
  rw [h1]
  rfl

theorem removeOps_get_idx (st : Store) (t lex : String) (cks : List String) (w : Nat)
    (ck : String) (h : ck ∈ cks) :
    storeGet (applyBatch st (removeOps t lex cks w)) (idxKeyOf t ck lex) = none := by
  rw [storeGet_applyBatch]
  unfold removeOps
  rw [lastOpOn_append, lastOpOn_pair]
  have h1 : (opKey (BatchOp.put (wcountKeyOf t) (.vnat (w + 1))) == idxKeyOf t ck lex) = false := by
    simp only [beq_eq_false_iff_ne]
    exact fun he => idxKey_ne_wcountKey t ck lex he.symm
  have h2 : (opKey (BatchOp.del (rowKeyOf t lex)) == idxKeyOf t ck lex) = false := by
    simp only [beq_eq_false_iff_ne]
    exact fun he => idxKey_ne_rowKey t ck lex lex he.symm
  rw [h1, h2]
  rw [lastOpOn_map_del_mem cks (fun ck2 => idxKeyOf t ck2 lex) (idxKeyOf t ck lex) ⟨ck, h, rfl⟩]
  rfl

/-- C8: `_remove` is idempotent and total: when the id fails to parse as a
LexoInt, or the row is absent, it is a silent no-op leaving the store (and
hence the write counter) unchanged; a second removal of the same id is a
no-op; and the write counter is bumped exactly once, by the first
(effective) removal. -/
theorem C8_remove_idempotent :
    (∀ (st : Store) (t : String) (r : OrmRec),
      lexoIntMk r.idArg (some LEXOINT_SIZE) = .error () → removeModel st t r = .ok st) ∧
    (∀ (st : Store) (t : String) (r : OrmRec) (x : Int × Nat),
      lexoIntMk r.idArg (some LEXOINT_SIZE) = .ok x →
      storeGet st (rowKeyOf t (lexoStrOf x.1 x.2)) = none → removeModel st t r = .ok st) ∧
    (∀ (st : Store) (t : String) (r : OrmRec) (st1 : Store),
      removeModel st t r = .ok st1 → removeModel st1 t r = .ok st1) ∧
    (∀ (st : Store) (t : String) (r : OrmRec) (st1 : Store) (x : Int × Nat) (w : Nat),
      removeModel st t r = .ok st1 →
      lexoIntMk r.idArg (some LEXOINT_SIZE) = .ok x →
      storeGet st (rowKeyOf t (lexoStrOf x.1 x.2)) ≠ none →
      wcountRead st t = .ok w →
      wcountRead st1 t = .ok (w + 1)) := by
  refine ⟨?_, ?_, ?_, ?_⟩
  · intro st t r hp
    simp only [removeModel, hp]
  · intro st t r x hp hrow
    simp only [removeModel, hp, hrow]
  · intro st t r st1 h
    cases hp : lexoIntMk r.idArg (some LEXOINT_SIZE) with
    | error e =>
      have he : e = () := rfl
      subst he
      simp only [removeModel, hp, Except.ok.injEq] at h
      subst h
      simp only [removeModel, hp]
    | ok x =>
      cases hrow : storeGet st (rowKeyOf t (lexoStrOf x.1 x.2)) with
      | none =>
        simp only [removeModel, hp, hrow, Except.ok.injEq] at h
        subst h
        simp only [removeModel, hp, hrow]
      | some v =>
        cases v with
        | vrec r0 =>
          cases hck : r0.ckeys with
          | none =>
            simp only [removeModel, hp, hrow, hck] at h
            exact Except.noConfusion h
          | some cks =>
            cases hw : wcountRead st t with
            | error e =>
              simp only [removeModel, hp, hrow, hck, hw] at h
              exact Except.noConfusion h
            | ok w =>
              simp only [removeModel, hp, hrow, hck, hw, Except.ok.injEq] at h
              subst h
              simp only [removeModel, hp, removeOps_get_row]
        | vstr s =>
          simp only [removeModel, hp, hrow] at h
          exact Except.noConfusion h
        | vnat n =>
          simp only [removeModel, hp, hrow] at h
          exact Except.noConfusion h
        | vnone =>
          simp only [removeModel, hp, hrow] at h
          exact Except.noConfusion h
  · intro st t r st1 x w h hp hrow hw
    cases hrow2 : storeGet st (rowKeyOf t (lexoStrOf x.1 x.2)) with
    | none => exact absurd hrow2 hrow
    | some v =>
      cases v with
      | vrec r0 =>
        cases hck : r0.ckeys with
        | none =>
          simp only [removeModel, hp, hrow2, hck] at h
          exact Except.noConfusion h
        | some cks =>
          simp only [removeModel, hp, hrow2, hck, hw, Except.ok.injEq] at h
          subst h
          rw [wcountRead, removeOps_get_wcount]
      | vstr s =>
        simp only [removeModel, hp, hrow2] at h
        exact Except.noConfusion h
      | vnat n =>
        simp only [removeModel, hp, hrow2] at h
        exact Except.noConfusion h
      | vnone =>
        simp only [removeModel, hp, hrow2] at h
        exact Except.noConfusion h

theorem lexoStrOf_props {v : Int} {sz : Nat} (hnn : 0 ≤ v)
    (hlen : (natReprChars v.toNat).length ≤ sz) :
    (lexoStrOf v sz).length = sz ∧ ∀ c ∈ (lexoStrOf v sz).data, (charToDigit c).isSome := by
  have hv : v = ((v.toNat : Nat) : Int) := by omega
  have hdata : (lexoStrOf v sz).data = zfillChars sz (natReprChars v.toNat) := by
    rw [hv]
    exact lexoStrOf_data v.toNat sz
  constructor
  · rw [string_length_data, hdata]
    unfold zfillChars
    rw [List.length_append, List.length_replicate]
    omega
  · intro c hc
    rw [hdata] at hc
    unfold zfillChars at hc
    rcases List.mem_append.mp hc with h | h
    · have := List.eq_of_mem_replicate h
      subst this
      rfl
    · unfold natReprChars at h
      obtain ⟨d, hd, hdc⟩ := List.mem_map.mp h
      have hd10 := natReprDigits_lt v.toNat d hd
      rw [← hdc, charToDigit_digitToChar hd10]
      rfl

theorem lexocountModel_ok_inv {st : Store} {t : String} {lex : String}
    (h : lexocountModel st t = .ok lex) :
    lex.length = LEXOINT_SIZE ∧ ∀ c ∈ lex.data, (charToDigit c).isSome := by
  unfold lexocountModel at h
  cases hf : (dbIter st (normTable t) true none).find? (fun p => islexointstring p.1) with
  | none =>
    have hmk : lexoIntMk (.strV zeros16) none = .ok (0, 16) := by rfl
    simp only [hf, hmk, Except.ok.injEq] at h
    subst h
    exact lexoStrOf_props (by omega) (by rw [show ((0 : Int)).toNat = 0 from rfl]; decide)
  | some p =>
    cases hmk : lexoIntMk (.strV p.1) (some LEXOINT_SIZE) with
    | error e =>
      simp only [hf, hmk] at h
      exact Except.noConfusion h
    | ok x =>
      cases hadd : lexoIntAdd x 1 with
      | error e =>
        simp only [hf, hmk, hadd] at h
        exact Except.noConfusion h
      | ok y =>
        simp only [hf, hmk, hadd, Except.ok.injEq] at h
        subst h
        obtain ⟨hy1, hy2, hy3⟩ :
            0 ≤ y.1 ∧ (natReprChars y.1.toNat).length ≤ y.2 ∧
              lexoSizeOf (.intV (x.1 + 1)) (some x.2) = y.2 := by
          have := @lexoIntMk_ok_inv (.intV (x.1 + 1)) (some x.2) y.1 y.2 hadd
          exact this
        obtain ⟨hx1, hx2, hx3⟩ := @lexoIntMk_ok_inv _ _ x.1 x.2 hmk
        have hx2eq : x.2 = 16 := by
          rw [← hx3]
          rfl
        have hy2eq : y.2 = 16 := by
          rw [← hy3, hx2eq]
          rfl
        have hprops := lexoStrOf_props hy1 hy2
        rw [hy2eq]
        rw [hy2eq] at hprops
        exact ⟨hprops.1, hprops.2⟩

theorem insertOps_eq (t lex : String) (ks : List IKey) (r1 r2 : OrmRec) (w : Nat) :
    insertOps t lex (calcIndex ks r1).1 (calcIndex ks r1).2 r2 w =
      ks.map (fun ik => BatchOp.put (idxKeyOf t (ckeyOf r1 ik) lex) (.vstr (ikeySrc ik)))
        ++ [BatchOp.put (rowKeyOf t lex) (.vrec r2),
            BatchOp.put (wcountKeyOf t) (.vnat (w + 1))] := by
  unfold insertOps calcIndex
  rw [List.zip_map', List.map_map]
  rfl

theorem insert_get_row (st : Store) (t lex : String) (ks : List IKey) (r1 r2 : OrmRec)
    (w : Nat) :
    storeGet (applyBatch st (insertOps t lex (calcIndex ks r1).1 (calcIndex ks r1).2 r2 w))
      (rowKeyOf t lex) = some (.vrec r2) := by
  rw [insertOps_eq, storeGet_applyBatch, lastOpOn_append, lastOpOn_pair]
  have h1 : (opKey (BatchOp.put (wcountKeyOf t) (.vnat (w + 1))) == rowKeyOf t lex) = false := by
    simp only [beq_eq_false_iff_ne]
    exact fun he => rowKey_ne_wcountKey t lex he.symm
  have h2 : (opKey (BatchOp.put (rowKeyOf t lex) (.vrec r2)) == rowKeyOf t lex) = true := by
    simp [opKey]
  rw [h1, h2]
  rfl

theorem insert_get_wcount (st : Store) (t lex : String) (ks : List IKey) (r1 r2 : OrmRec)
    (w : Nat) :
    storeGet (applyBatch st (insertOps t lex (calcIndex ks r1).1 (calcIndex ks r1).2 r2 w))
      (wcountKeyOf t) = some (.vnat (w + 1)) := by
  rw [insertOps_eq, storeGet_applyBatch, lastOpOn_append, lastOpOn_pair]
  have h1 : (opKey (BatchOp.put (wcountKeyOf t) (.vnat (w + 1))) == wcountKeyOf t) = true := by
    simp [opKey]
  rw [h1]
  rfl

theorem insert_get_idx (st : Store) (t lex : String) (ks : List IKey) (r1 r2 : OrmRec)
    (w : Nat) (ik : IKey) (hik : ik ∈ ks) :
    ∃ ik2 ∈ ks, ckeyOf r1 ik2 = ckeyOf r1 ik ∧
      storeGet (applyBatch st (insertOps t lex (calcIndex ks r1).1 (calcIndex ks r1).2 r2 w))
        (idxKeyOf t (ckeyOf r1 ik) lex) = some (.vstr (ikeySrc ik2)) := by
  rw [insertOps_eq]
  obtain ⟨ik2, hmem, hkey, hlast⟩ := lastOpOn_map_put_mem ks
    (fun i => idxKeyOf t (ckeyOf r1 i) lex) (fun i => OrmVal.vstr (ikeySrc i))
    (idxKeyOf t (ckeyOf r1 ik) lex) ⟨ik, hik, rfl⟩
  refine ⟨ik2, hmem, idxKey_inj_ck hkey, ?_⟩
  rw [storeGet_applyBatch, lastOpOn_append, lastOpOn_pair]
  have h1 : (opKey (BatchOp.put (wcountKeyOf t) (.vnat (w + 1))) ==
      idxKeyOf t (ckeyOf r1 ik) lex) = false := by
    simp only [beq_eq_false_iff_ne]
    exact fun he => idxKey_ne_wcountKey t (ckeyOf r1 ik) lex he.symm
  have h2 : (opKey (BatchOp.put (rowKeyOf t lex) (.vrec r2)) ==
      idxKeyOf t (ckeyOf r1 ik) lex) = false := by
    simp only [beq_eq_false_iff_ne]
    exact fun he => idxKey_ne_rowKey t (ckeyOf r1 ik) lex lex he.symm
  rw [h1, h2, hlast]
  rfl

theorem insert_get_idx_nodup (st : Store) (t lex : String) (ks : List IKey) (r1 r2 : OrmRec)
    (w : Nat) (hnd : (ks.map (ckeyOf r1)).Nodup) (ik : IKey) (hik : ik ∈ ks) :
    storeGet (applyBatch st (insertOps t lex (calcIndex ks r1).1 (calcIndex ks r1).2 r2 w))
      (idxKeyOf t (ckeyOf r1 ik) lex) = some (.vstr (ikeySrc ik)) := by
  obtain ⟨ik2, hmem, hck, hget⟩ := insert_get_idx st t lex ks r1 r2 w ik hik
  have : ik2 = ik := List.inj_on_of_nodup_map hnd hmem hik hck
  rw [hget, this]

/-- Python value of a possibly missing read (`val` may be `None`). -/
def optVal : Option OrmVal → OrmVal
  | none => .vnone
  | some v => v

/-- Inner row loop of `_select` over the pairs one index iterator yields:
ids are de-duplicated across ckeys (the seen-set gains every new id before
the shape check), the LexoInt shape is checked, the row is loaded (a
missing row loads as `None`), and in intersection mode a row is kept only
if its stored ckeys contain every requested ckey; the loop breaks once the
count reaches the limit (the Bool records the break).  In intersection
mode a `None` or non-mapping row value raises (`val.get` fails). -/
def selRows (st : Store) (t : String) (inter : Bool) (req : List String) (limit : Nat) :
    List (String × OrmVal) → List String → List OrmVal → Nat →
    Except Unit (List String × List OrmVal × Nat × Bool)
  | [], ids, res, cnt => .ok (ids, res, cnt, false)
  | (lex, _) :: rest, ids, res, cnt =>
    if ids.contains lex then selRows st t inter req limit rest ids res cnt
    else
      if islexointstring lex then
        if !inter then
          if limit ≤ cnt + 1 then
            .ok (lex :: ids, res ++ [optVal (storeGet st (rowKeyOf t lex))], cnt + 1, true)
          else
            selRows st t inter req limit rest (lex :: ids)
              (res ++ [optVal (storeGet st (rowKeyOf t lex))]) (cnt + 1)
        else
          match storeGet st (rowKeyOf t lex) with
          | none => .error ()
          | some (.vrec r0) =>
            if req.all (fun k => (r0.ckeys.getD []).contains k) then
              if limit ≤ cnt + 1 then .ok (lex :: ids, res ++ [.vrec r0], cnt + 1, true)
              else selRows st t inter req limit rest (lex :: ids) (res ++ [.vrec r0]) (cnt + 1)
            else selRows st t inter req limit rest (lex :: ids) res cnt
          | some _ => .error ()
      else selRows st t inter req limit rest (lex :: ids) res cnt

/-- Outer ckey loop of `_select`: one index iterator per requested ckey
(prefix `table[:-1] + "s." + ckey + "."`, with the effective seek); a
limit break skips the remaining ckeys. -/
def selectCkeys (st : Store) (t : String) (rev : Bool) (inter : Bool) (req : List String)
    (skEff : Option String) (limit : Nat) :
    List String → List String → List OrmVal → Nat → Except Unit (List OrmVal)
  | [], _ids, res, _cnt => .ok res
  | ck :: rest, ids, res, cnt =>
    match selRows st t inter req limit
        (dbIter st (tblBase t ++ "s." ++ ck ++ ".") rev skEff) ids res cnt with
    | .error e => .error e
    | .ok (ids1, res1, cnt1, broke) =>
      if broke then .ok res1
      else selectCkeys st t rev inter req skEff limit rest ids1 res1 cnt1

/-- The effective seek of `_select`: `seek = LexoInt(seek, size=16)`, then
`if reverse: seek += 1`, then `seek = str(seek)`. -/
def selectSeekEff (reverse : Bool) (seek : Option PyIntArg) : Except Unit (Option String) :=
  match seek with
  | none => .ok none
  | some a =>
    match lexoIntMk a (some LEXOINT_SIZE) with
    | .error e => .error e
    | .ok x =>
      if reverse then
        match lexoIntAdd x 1 with
        | .error e => .error e
        | .ok y => .ok (some (lexoStrOf y.1 y.2))
      else .ok (some (lexoStrOf x.1 x.2))

/-- Model of `MDBOrm._select` on the cache-miss path (the per-table result
cache and the process lock are elided: this is the behaviour of a fresh
process).  `inter` is `mode.startswith("inter")`; `req` holds the already
stringified requested ckeys; a non-positive limit returns the empty
result. -/
def selectModel (st : Store) (t : String) (rev : Bool) (inter : Bool) (req : List String)
    (seek : Option PyIntArg) (limit : Nat) : Except Unit (List OrmVal) :=
  match selectSeekEff rev seek with
  | .error e => .error e
  | .ok skEff =>
    if limit = 0 then .ok []
    else selectCkeys st t rev inter req skEff limit req [] [] 0

/-- C2 counterexample: with `reverse=true` and `seek=5`, the row whose id
equals the seek IS returned (it is the first candidate), contradicting the
claim that a row with id equal to seek is excluded.  The engine reverse
seek starts strictly before the target, and the `+ 1` offset makes the
seek inclusive, as the pagination comment in `_select` itself states. -/
theorem C2_seek_cex :
    selectModel
      [("T.0000000000000005", OrmVal.vrec ⟨PyIntArg.strV "0000000000000005", some ["items"], 5⟩),
       ("Ts.items.0000000000000005", OrmVal.vstr "items"),
       ("T#wcount", OrmVal.vnat 1)]
      "T" true true ["items"] (some (.intV 5)) 1000000 =
      .ok [OrmVal.vrec ⟨PyIntArg.strV "0000000000000005", some ["items"], 5⟩] := by
  rfl

theorem natReprChars_length_le {n W : Nat} (h1 : n < 10 ^ W) (h2 : 1 ≤ W) :
    (natReprChars n).length ≤ W := by
  unfold natReprChars
  rw [List.length_map]
  exact natReprDigits_length_le h1 h2

theorem lexoIntMk_intV_16 {n : Nat} (h : n < 10 ^ LEXOINT_SIZE) :
    lexoIntMk (.intV (n : Int)) (some LEXOINT_SIZE) = .ok ((n : Int), LEXOINT_SIZE) := by
  rw [lexoIntMk_some (some LEXOINT_SIZE)
    (show pyIntOf (.intV (n : Int)) = some (n : Int) from rfl)]
  unfold lexoIntChecks
  rw [if_neg (by omega)]
  have hlen : (natReprChars n).length ≤ 16 := natReprChars_length_le h (by norm_num)
  rw [if_neg (by
    simp only [Int.toNat_natCast,
      show lexoSizeOf (.intV (n : Int)) (some LEXOINT_SIZE) = 16 from rfl]
    omega)]
  rfl

/-- C2 amended: in reverse mode the effective seek handed to the index
iterator is the given seek offset forward by one, and in forward mode the
given seek verbatim; since the engine's reverse seek positions strictly
before the target key while its forward seek is inclusive, the reverse
iteration window is exactly the ids at or below the seek (a row whose id
equals the seek is included, as the first candidate), and the forward
window is exactly the ids at or above the seek (again including an exact
match as the first candidate). -/
theorem C2_seek_amended (s : Nat) (hs : s + 1 < 10 ^ LEXOINT_SIZE) :
    selectSeekEff true (some (.intV (s : Int))) =
      .ok (some (lexoStrOf (((s + 1 : Nat) : Nat) : Int) LEXOINT_SIZE)) ∧
    selectSeekEff false (some (.intV (s : Int))) =
      .ok (some (lexoStrOf ((s : Nat) : Int) LEXOINT_SIZE)) ∧
    (∀ n : Nat, n < 10 ^ LEXOINT_SIZE →
      (strLt (lexoStrOf ((n : Nat) : Int) LEXOINT_SIZE)
          (lexoStrOf (((s + 1 : Nat) : Nat) : Int) LEXOINT_SIZE) = true ↔ n ≤ s)) ∧
    (∀ n : Nat, n < 10 ^ LEXOINT_SIZE →
      (strLt (lexoStrOf ((n : Nat) : Int) LEXOINT_SIZE)
          (lexoStrOf ((s : Nat) : Int) LEXOINT_SIZE) = false ↔ s ≤ n)) := by
  have hs0 : s < 10 ^ LEXOINT_SIZE := by omega
  have hmk1 := lexoIntMk_intV_16 hs0
  have hmk2 := lexoIntMk_intV_16 hs
  have hcast : ((s : Int) + 1) = (((s + 1 : Nat) : Nat) : Int) := by push_cast; ring
  refine ⟨?_, ?_, ?_, ?_⟩
  · simp only [selectSeekEff, hmk1, if_true]
    have hadd : lexoIntAdd ((s : Int), LEXOINT_SIZE) 1 =
        .ok ((((s + 1 : Nat) : Nat) : Int), LEXOINT_SIZE) := by
      unfold lexoIntAdd
      rw [show ((s : Int), LEXOINT_SIZE).1 + 1 = (((s + 1 : Nat) : Nat) : Int) from hcast]
      exact hmk2
    simp only [hadd]
  · simp only [selectSeekEff, hmk1, Bool.false_eq_true, if_false]
  · intro n hn
    unfold strLt
    rw [lexoStrOf_data, lexoStrOf_data]
    rw [lexLt_zfill_iff hn hs]
    omega
  · intro n hn
    unfold strLt
    rw [lexoStrOf_data, lexoStrOf_data]
    constructor
    · intro hfalse
      by_contra hc
      have hlt : n < s := by omega
      have := (lexLt_zfill_iff hn hs0).mpr hlt
      rw [hfalse] at this
      exact Bool.noConfusion this
    · intro hle
      cases hX : lexLt (zfillChars LEXOINT_SIZE (natReprChars n))
          (zfillChars LEXOINT_SIZE (natReprChars s)) with
      | false => rfl
      | true =>
        have := (lexLt_zfill_iff hn hs0).mp hX
        omega

/-- Witness for C2 amended at a concrete seek. -/
theorem C2_seek_amended_witness :
    selectSeekEff true (some (.intV (5 : Int))) =
      .ok (some (lexoStrOf ((6 : Nat) : Int) LEXOINT_SIZE)) ∧
    (strLt (lexoStrOf ((5 : Nat) : Int) LEXOINT_SIZE)
        (lexoStrOf ((6 : Nat) : Int) LEXOINT_SIZE) = true ↔ 5 ≤ 5) :=
  ⟨(C2_seek_amended 5 (by norm_num [LEXOINT_SIZE])).1,
   (C2_seek_amended 5 (by norm_num [LEXOINT_SIZE])).2.2.1 5 (by norm_num [LEXOINT_SIZE])⟩

/-- C4 counterexample: two predicates that produce the same ckey on a
record overwrite each other in the index namespace, so the key exists but
holds the source of only one of them.  Here the plain predicate "a" and a
lambda evaluating to "a" collide; after the insert the key `Ms.a.<id>`
holds the lambda source, not the plain source "a". -/
theorem C4_index_discipline_cex :
    (insertModel [] "M" [IKey.plain "a", IKey.lam "lambda m: chr(97)" (fun _ => EvalRes.val "a")]
        ⟨PyIntArg.noneV, none, 0⟩).map
        (fun p => storeGet p.1 (idxKeyOf "M" "a" zeros16)) =
      .ok (some (OrmVal.vstr "lambda m: chr(97)")) ∧
    (insertModel [] "M" [IKey.plain "a", IKey.lam "lambda m: chr(97)" (fun _ => EvalRes.val "a")]
        ⟨PyIntArg.noneV, none, 0⟩).map
        (fun p => storeGet p.1 (idxKeyOf "M" "a" zeros16)) ≠
      .ok (some (OrmVal.vstr "a")) := by
  refine ⟨rfl, ?_⟩
  intro hEq
  rw [show (insertModel [] "M"
      [IKey.plain "a", IKey.lam "lambda m: chr(97)" (fun _ => EvalRes.val "a")]
      ⟨PyIntArg.noneV, none, 0⟩).map
      (fun p => storeGet p.1 (idxKeyOf "M" "a" zeros16)) =
      .ok (some (OrmVal.vstr "lambda m: chr(97)")) from rfl] at hEq
  injection hEq with h1
  injection h1 with h2
  injection h2 with h3
  exact absurd h3 (by decide)

/-- C4 amended: after insert(r) succeeds with allocated id `lex`, for every
predicate p of the set (always containing "items") the key
`Ts.<p(r)>.<lex>` exists and its value is the source of SOME predicate of
the set producing the same ckey on r (of p itself whenever the ckeys are
pairwise distinct); the row is stored; and after remove of the returned
record, none of those index keys exist and the row key is gone — each side
within one atomic batch. -/
theorem C4_index_discipline_amended (st : Store) (t : String) (iks : List IKey) (r : OrmRec)
    (st1 : Store) (r2 : OrmRec) (h : insertModel st t iks r = .ok (st1, r2)) :
    ∃ lex : String,
      r2 = insRec2Of r lex iks ∧
      (∀ ik ∈ mkIkeysSet iks, ∃ ik2 ∈ mkIkeysSet iks,
        ckeyOf (insRecOf r lex) ik2 = ckeyOf (insRecOf r lex) ik ∧
        storeGet st1 (idxKeyOf t (ckeyOf (insRecOf r lex) ik) lex) =
          some (.vstr (ikeySrc ik2))) ∧
      (((mkIkeysSet iks).map (ckeyOf (insRecOf r lex))).Nodup →
        ∀ ik ∈ mkIkeysSet iks,
          storeGet st1 (idxKeyOf t (ckeyOf (insRecOf r lex) ik) lex) =
            some (.vstr (ikeySrc ik))) ∧
      storeGet st1 (rowKeyOf t lex) = some (.vrec (insRec2Of r lex iks)) ∧
      ∃ st2, removeModel st1 t (insRec2Of r lex iks) = .ok st2 ∧
        (∀ ik ∈ mkIkeysSet iks,
          storeGet st2 (idxKeyOf t (ckeyOf (insRecOf r lex) ik) lex) = none) ∧
        storeGet st2 (rowKeyOf t lex) = none := by
  cases hlx : lexocountModel st t with
  | error e =>
    simp only [insertModel, hlx] at h
    exact Except.noConfusion h
  | ok lex =>
    cases hw : wcountRead st t with
    | error e =>
      simp only [insertModel, hlx, hw] at h
      exact Except.noConfusion h
    | ok w =>
      simp only [insertModel, hlx, hw, Except.ok.injEq, Prod.mk.injEq] at h
      obtain ⟨hst1, hr2⟩ := h
      subst hst1
      subst hr2
      refine ⟨lex, rfl, ?_, ?_, ?_, ?_⟩
      · intro ik hik
        exact insert_get_idx st t lex (mkIkeysSet iks) (insRecOf r lex)
          (insRec2Of r lex iks) w ik hik
      · intro hnd ik hik
        exact insert_get_idx_nodup st t lex (mkIkeysSet iks) (insRecOf r lex)
          (insRec2Of r lex iks) w hnd ik hik
      · exact insert_get_row st t lex (mkIkeysSet iks) (insRecOf r lex)
          (insRec2Of r lex iks) w
      · have hprops := lexocountModel_ok_inv hlx
        have hne : lex.data ≠ [] := by
          intro h0
          have hl := hprops.1
          rw [string_length_data, h0] at hl
          exact absurd hl (by decide)
        have hsz : lexoSizeOf (.strV lex) (some LEXOINT_SIZE) = lex.length := by
          rw [hprops.1]
          rfl
        obtain ⟨hparse, hstr⟩ := lexoParse_digit_generic lex hne hprops.2
          (some LEXOINT_SIZE) hsz
        have hparse2 : lexoIntMk (insRec2Of r lex iks).idArg (some LEXOINT_SIZE) =
            .ok (((msbVal (lex.data.map charDigitVal) : Nat) : Int), lex.length) := hparse
        have hrowget := insert_get_row st t lex (mkIkeysSet iks) (insRecOf r lex)
          (insRec2Of r lex iks) w
        have hwc1 : wcountRead
            (applyBatch st (insertOps t lex ((calcIndex (mkIkeysSet iks) (insRecOf r lex)).1)
              ((calcIndex (mkIkeysSet iks) (insRecOf r lex)).2) (insRec2Of r lex iks) w)) t =
            .ok (w + 1) := by
          unfold wcountRead
          rw [insert_get_wcount]
        have hckeq : (insRec2Of r lex iks).ckeys =
            some ((calcIndex (mkIkeysSet iks) (insRecOf r lex)).1) := rfl
        have hrm : removeModel
            (applyBatch st (insertOps t lex ((calcIndex (mkIkeysSet iks) (insRecOf r lex)).1)
              ((calcIndex (mkIkeysSet iks) (insRecOf r lex)).2) (insRec2Of r lex iks) w)) t
            (insRec2Of r lex iks) =
            .ok (applyBatch
              (applyBatch st (insertOps t lex
                ((calcIndex (mkIkeysSet iks) (insRecOf r lex)).1)
                ((calcIndex (mkIkeysSet iks) (insRecOf r lex)).2) (insRec2Of r lex iks) w))
              (removeOps t lex ((calcIndex (mkIkeysSet iks) (insRecOf r lex)).1) (w + 1))) := by
          simp only [removeModel, hparse2, hstr, hrowget, hckeq, hwc1]
        refine ⟨_, hrm, ?_, ?_⟩
        · intro ik hik
          exact removeOps_get_idx _ t lex _ (w + 1) (ckeyOf (insRecOf r lex) ik)
            (by
              unfold calcIndex
              exact List.mem_map_of_mem (ckeyOf (insRecOf r lex)) hik)
        · exact removeOps_get_row _ t lex _ (w + 1)

/-- Witness for C4 amended at a concrete insert into an empty store. -/
theorem C4_index_discipline_amended_witness :
    ∃ lex : String,
      ⟨PyIntArg.strV zeros16, some ["items"], 5⟩ = insRec2Of ⟨PyIntArg.noneV, none, 5⟩ lex [] ∧
      (∀ ik ∈ mkIkeysSet [], ∃ ik2 ∈ mkIkeysSet [],
        ckeyOf (insRecOf ⟨PyIntArg.noneV, none, 5⟩ lex) ik2 =
          ckeyOf (insRecOf ⟨PyIntArg.noneV, none, 5⟩ lex) ik ∧
        storeGet [("Ms.items.0000000000000000", OrmVal.vstr "items"),
            ("M.0000000000000000", OrmVal.vrec ⟨PyIntArg.strV zeros16, some ["items"], 5⟩),
            ("M#wcount", OrmVal.vnat 1)]
          (idxKeyOf "M" (ckeyOf (insRecOf ⟨PyIntArg.noneV, none, 5⟩ lex) ik) lex) =
          some (.vstr (ikeySrc ik2))) ∧
      (((mkIkeysSet []).map (ckeyOf (insRecOf ⟨PyIntArg.noneV, none, 5⟩ lex))).Nodup →
        ∀ ik ∈ mkIkeysSet [],
          storeGet [("Ms.items.0000000000000000", OrmVal.vstr "items"),
              ("M.0000000000000000", OrmVal.vrec ⟨PyIntArg.strV zeros16, some ["items"], 5⟩),
              ("M#wcount", OrmVal.vnat 1)]
            (idxKeyOf "M" (ckeyOf (insRecOf ⟨PyIntArg.noneV, none, 5⟩ lex) ik) lex) =
            some (.vstr (ikeySrc ik))) ∧
      storeGet [("Ms.items.0000000000000000", OrmVal.vstr "items"),
          ("M.0000000000000000", OrmVal.vrec ⟨PyIntArg.strV zeros16, some ["items"], 5⟩),
          ("M#wcount", OrmVal.vnat 1)]
        (rowKeyOf "M" lex) = some (.vrec (insRec2Of ⟨PyIntArg.noneV, none, 5⟩ lex [])) ∧
      ∃ st2, removeModel [("Ms.items.0000000000000000", OrmVal.vstr "items"),
          ("M.0000000000000000", OrmVal.vrec ⟨PyIntArg.strV zeros16, some ["items"], 5⟩),
          ("M#wcount", OrmVal.vnat 1)] "M"
          (insRec2Of ⟨PyIntArg.noneV, none, 5⟩ lex []) = .ok st2 ∧
        (∀ ik ∈ mkIkeysSet [],
          storeGet st2 (idxKeyOf "M" (ckeyOf (insRecOf ⟨PyIntArg.noneV, none, 5⟩ lex) ik) lex) =
            none) ∧
        storeGet st2 (rowKeyOf "M" lex) = none :=
  C4_index_discipline_amended [] "M" [] ⟨PyIntArg.noneV, none, 5⟩
    [("Ms.items.0000000000000000", OrmVal.vstr "items"),
     ("M.0000000000000000", OrmVal.vrec ⟨PyIntArg.strV zeros16, some ["items"], 5⟩),
     ("M#wcount", OrmVal.vnat 1)]
    ⟨PyIntArg.strV zeros16, some ["items"], 5⟩ (by rfl)

/-- Witness for C8 at concrete inputs: an unparseable id is a no-op, and
removing an existing row is idempotent. -/
theorem C8_remove_idempotent_witness :
    removeModel [] "M" ⟨PyIntArg.noneV, none, 0⟩ = .ok [] ∧
    removeModel [("M#wcount", OrmVal.vnat 2)] "M"
        ⟨PyIntArg.strV "0000000000000001", none, 7⟩ =
      .ok [("M#wcount", OrmVal.vnat 2)] :=
  ⟨C8_remove_idempotent.1 [] "M" ⟨PyIntArg.noneV, none, 0⟩ rfl,
   C8_remove_idempotent.2.1 [("M#wcount", OrmVal.vnat 2)] "M"
     ⟨PyIntArg.strV "0000000000000001", none, 7⟩ (1, 16) (by rfl) (by rfl)⟩

/-! ### The slot transport and broker (`mdb.py`)

Frames carry Python literal values.  The frame bound `BLOCK_SIZE` counts
UTF-8 bytes; string `repr` is modelled with backslash escapes of the quote
and backslash characters (CPython may instead switch the quote character,
which never lengthens the text). -/

/-- Values representable as textual literals in a frame.  `vinf` is the
float infinity: `literal_eval` produces it from an overflowing number
literal such as `1e999`, but its own repr `inf` is a bare name that
`literal_eval` rejects, so a stored `vinf` cannot be read back. -/
inductive PyVal where
  | vint (n : Int)
  | vstr (s : String)
  | vbool (b : Bool)
  | vnone
  | vinf
  | vlist (l : List PyVal)
  | vtuple (l : List PyVal)
  | vdict (l : List (PyVal × PyVal))

/-- The single-quote character. -/
def sq : Char := Char.ofNat 39

/-- The backslash character. -/
def bsl : Char := Char.ofNat 92

/-- The single-quote character as a string. -/
def sqStr : String := String.mk [sq]

/-- Quote/backslash escaping inside a string repr. -/
def pyStrEscape (l : List Char) : List Char :=
  l.foldr (fun c acc => if c = sq ∨ c = bsl then bsl :: c :: acc else c :: acc) []

/-- Python `repr` of a string. -/
def pyStrRepr (s : String) : String := String.mk (sq :: (pyStrEscape s.data ++ [sq]))

mutual

/-- Python `repr` of a frame value (a one-element tuple gets the trailing
comma). -/
def pyRepr : PyVal → String
  | .vint n => pyIntRepr n
  | .vstr s => pyStrRepr s
  | .vbool b => if b then "True" else "False"
  | .vnone => "None"
  | .vinf => "inf"
  | .vlist l => "[" ++ pyReprJoin l ++ "]"
  | .vtuple l => "(" ++ pyReprJoin l ++ (if l.length = 1 then ",)" else ")")
  | .vdict l => "\x7b" ++ pyReprJoinKV l ++ "\x7d"
termination_by v => sizeOf v

/-- Comma-joined reprs of the elements of a list or tuple. -/
def pyReprJoin : List PyVal → String
  | [] => ""
  | [x] => pyRepr x
  | x :: y :: rest => pyRepr x ++ ", " ++ pyReprJoin (y :: rest)
termination_by l => sizeOf l

/-- Comma-joined `key: value` reprs of a mapping. -/
def pyReprJoinKV : List (PyVal × PyVal) → String
  | [] => ""
  | [(k, v)] => pyRepr k ++ ": " ++ pyRepr v
  | (k, v) :: kv :: rest => pyRepr k ++ ": " ++ pyRepr v ++ ", " ++ pyReprJoinKV (kv :: rest)
termination_by l => sizeOf l

end

/-- UTF-8 byte count of a character list. -/
def byteLenL (l : List Char) : Nat := (l.map Char.utf8Size).sum

/-- UTF-8 byte count of a string (the length of `str.encode()`). -/
def strByteLen (s : String) : Nat := byteLenL s.data

/-- Frame capacity per slot, `MDB.BLOCK_SIZE = DB.BLOCK_SIZE = 16 * 1024`. -/
def BLOCK_SIZE : Nat := 16 * 1024

/-- Slot state bytes of `mdb.py`. -/
def STATE_IDLE : Nat := 0

/-- Request pending. -/
def STATE_REQUEST : Nat := 1

/-- Response ready. -/
def STATE_RESPONCE : Nat := 2

/-- Model of `MDB.__put_data`: serialize, append the NUL byte and check
the bound BEFORE any byte is written; an oversized frame raises
`BufferError` with the frame untouched. -/
def putData (data : PyVal) : Except Unit String :=
  if BLOCK_SIZE < strByteLen (pyRepr data) + 1 then .error ()
  else .ok (pyRepr data)

/-- One peer-visible slot: its data frame and its state byte. -/
structure ClientSlot where
  frame : String
  state : Nat
deriving DecidableEq, Repr

/-- Model of `MDB._put_request`: `__put_data` first (it may raise
`BufferError`, reported in the second component, with the slot unchanged),
then the state byte is set to REQUEST. -/
def putRequest (data : PyVal) (sl : ClientSlot) : ClientSlot × Option Unit :=
  match putData data with
  | .error _ => (sl, some ())
  | .ok raw => ({ frame := raw, state := STATE_REQUEST }, none)

/-- C3: a request whose textual literal plus NUL terminator exceeds the
frame raises BufferError locally, before the state byte changes: the slot
(frame and state) is returned unchanged, so a slot that was IDLE remains
IDLE and none of the oversized bytes are written. -/
theorem C3_buffer_too_small (data : PyVal) (sl : ClientSlot)
    (h : BLOCK_SIZE < strByteLen (pyRepr data) + 1) :
    putRequest data sl = (sl, some ()) ∧
    (putRequest data sl).1.frame = sl.frame ∧
    (putRequest data sl).1.state = sl.state ∧
    (sl.state = STATE_IDLE → (putRequest data sl).1.state = STATE_IDLE) := by
  have hp : putData data = .error () := by
    unfold putData
    rw [if_pos h]
  have hr : putRequest data sl = (sl, some ()) := by
    unfold putRequest
    rw [hp]
  refine ⟨hr, by rw [hr], by rw [hr], fun hidle => by rw [hr]; exact hidle⟩

theorem pyStrEscape_replicate_a (n : Nat) :
    pyStrEscape (List.replicate n 'a') = List.replicate n 'a' := by
  induction n with
  | zero => rfl
  | succ n ih =>
    rw [List.replicate_succ]
    unfold pyStrEscape at ih ⊢
    rw [List.foldr_cons, ih]
    rw [if_neg (by decide)]

theorem byteLen_repr_replicate_a (n : Nat) :
    strByteLen (pyRepr (.vstr (String.mk (List.replicate n 'a')))) = n + 2 := by
  have hrepr : pyRepr (.vstr (String.mk (List.replicate n 'a')))
      = pyStrRepr (String.mk (List.replicate n 'a')) := by
    simp [pyRepr]
  rw [hrepr]
  unfold pyStrRepr strByteLen
  have hdata : (String.mk (List.replicate n 'a')).data = List.replicate n 'a' := rfl
  rw [hdata, pyStrEscape_replicate_a]
  unfold byteLenL
  rw [show (String.mk (sq :: (List.replicate n 'a' ++ [sq]))).data =
    sq :: (List.replicate n 'a' ++ [sq]) from rfl]
  have h1 : sq.utf8Size = 1 := rfl
  have h2 : Char.utf8Size 'a' = 1 := rfl
  simp only [List.map_cons, List.map_nil, List.map_append, List.map_replicate, List.sum_cons,
    List.sum_append, List.sum_nil, List.sum_replicate, smul_eq_mul, h1, h2]
  omega

/-- Witness for C3: a string of `BLOCK_SIZE` characters does not fit. -/
theorem C3_buffer_too_small_witness :
    putRequest (.vstr (String.mk (List.replicate BLOCK_SIZE 'a')))
      ⟨"", STATE_IDLE⟩ = (⟨"", STATE_IDLE⟩, some ()) :=
  (C3_buffer_too_small (.vstr (String.mk (List.replicate BLOCK_SIZE 'a')))
    ⟨"", STATE_IDLE⟩
    (by rw [byteLen_repr_replicate_a]; norm_num [BLOCK_SIZE])).1

/-! ### The broker dispatch loop (`MDB.__maintainer`, mdb.py lines 356-460)

The broker-visible database is modeled as an association list from string
keys to literal values: `db.py` stores `repr(val)` and re-reads it with
`literal_eval`, which round-trips on the literal values covered by
`PyVal`, so the byte-level codec is elided.  Each slot carries at most one
iterator generator and one batch generator, modeled as explicit session
states. -/

/-- Python truthiness of a literal value (`bool(v)`). -/
def pyTruthy : PyVal → Bool
  | .vint n => n != 0
  | .vstr s => !s.data.isEmpty
  | .vbool b => b
  | .vnone => false
  | .vinf => true
  | .vlist l => !l.isEmpty
  | .vtuple l => !l.isEmpty
  | .vdict l => !l.isEmpty

/-- Whether a dict key equals the given string key (under Python equality
only a string key can equal a string). -/
def keyIsStr (s : String) : PyVal → Bool
  | .vstr t => t == s
  | _ => false

/-- `dict.get(s)` on the dict built from a literal entry list (a
duplicated literal key keeps its last value). -/
def pyDictGet (l : List (PyVal × PyVal)) (s : String) : Option PyVal :=
  (l.reverse.find? (fun kv => keyIsStr s kv.1)).map (fun kv => kv.2)

/-- `request.get(s)`: a missing key reads as `None`. -/
def reqGet (l : List (PyVal × PyVal)) (s : String) : PyVal :=
  (pyDictGet l s).getD .vnone

/-- `method == s` for the value fetched by `request.get('method')`. -/
def isMethod (v : PyVal) (s : String) : Bool :=
  match v with
  | .vstr t => t == s
  | _ => false

/-- `repr(x)[0:125]`. -/
def strTake (n : Nat) (s : String) : String := String.mk (s.data.take n)

/-- The broker-visible database contents. -/
abbrev KV := List (String × PyVal)

/-- `db.get` on the contents (missing key reads as `none`). -/
def kvGet (kv : KV) (k : String) : Option PyVal :=
  (kv.find? (fun p => p.1 == k)).map (fun p => p.2)

/-- `db.put`: at most one binding per key. -/
def kvPut (kv : KV) (k : String) (v : PyVal) : KV :=
  kv.filter (fun p => p.1 != k) ++ [(k, v)]

/-- `db.delete` (deleting a missing key is a no-op). -/
def kvDel (kv : KV) (k : String) : KV :=
  kv.filter (fun p => p.1 != k)

/-- Insertion into a key-sorted association list. -/
def kvInsertSorted (p : String × PyVal) : KV → KV
  | [] => [p]
  | q :: rest => if strLe p.1 q.1 then p :: q :: rest else q :: kvInsertSorted p rest

/-- The contents in LevelDB iteration order (ascending byte order). -/
def kvSortByKey (kv : KV) : KV := kv.foldr kvInsertSorted []

/-- Model of the engine-side window of `_DB.iterator` on a snapshot of
the contents, as `dbIter`: forward seek starts at the first key not
below `prefix + seek`; reverse seek starts strictly below it; keys
outside the prefix are skipped.  The pairs keep the full key: decoding
the value and stripping the prefix happen per `yield` (see `nextIter`),
where the decode may raise. -/
def kvIter (kv : KV) (pfx : String) (rev : Bool) (seek : Option String) : KV :=
  let sorted : KV := kvSortByKey kv
  let sel : KV :=
    match seek with
    | none => if rev then sorted.reverse else sorted
    | some sk =>
      if rev then (sorted.filter (fun p => strLt p.1 (pfx ++ sk))).reverse
      else sorted.filter (fun p => !(strLt p.1 (pfx ++ sk)))
  sel.filter (fun p => strStartsWith p.1 pfx)

mutual

/-- Whether the stored bytes `repr(v).encode()` are read back by
`literal_eval`: true unless the value contains the float infinity,
whose repr `inf` is not a parseable literal. -/
def pyDecodable : PyVal → Bool
  | .vint _ => true
  | .vstr _ => true
  | .vbool _ => true
  | .vnone => true
  | .vinf => false
  | .vlist l => pyDecList l
  | .vtuple l => pyDecList l
  | .vdict l => pyDecKV l
termination_by v => sizeOf v

/-- All elements decodable. -/
def pyDecList : List PyVal → Bool
  | [] => true
  | x :: rest => pyDecodable x && pyDecList rest
termination_by l => sizeOf l

/-- All keys and values decodable. -/
def pyDecKV : List (PyVal × PyVal) → Bool
  | [] => true
  | (k, v) :: rest => pyDecodable k && pyDecodable v && pyDecKV rest
termination_by l => sizeOf l

end

/-- Python `str` of the bytes object holding the given text: `b'...'`
(same quote/backslash escaping model as `pyStrRepr`). -/
def bytesRepr (s : String) : String := "b" ++ pyStrRepr s

/-- `str(e)` for `RuntimeError(f"DB {path}: Invalid Value {val} for key
{key}")` raised by `_DB.get` (db.py line 89): `val` is the raw stored
bytes, `key` the string argument.  Nothing here is truncated. -/
def invalidValErr (path : String) (v : PyVal) (k : String) : String :=
  "DB " ++ path ++ ": Invalid Value " ++ bytesRepr (pyRepr v) ++ " for key " ++ k

/-- The iterator variant (db.py line 149): there `key` is still the raw
full-key bytes object. -/
def invalidValIterErr (path : String) (v : PyVal) (k : String) : String :=
  "DB " ++ path ++ ": Invalid Value " ++ bytesRepr (pyRepr v) ++ " for key " ++ bytesRepr k

/-- `str(e)` for `AssertionError(f"DB {path}: key must be a string")`. -/
def dbKeyErr (path : String) : String := "DB " ++ path ++ ": key must be a string"

/-- `WriteBatch.put` uses the `WB` prefix in its message. -/
def wbKeyErr (path : String) : String := "WB " ++ path ++ ": key must be a string"

/-- Bad iterator prefix message. -/
def iterPfxErr (path : String) : String :=
  "DB " ++ path ++ ": Iterator prefix must be a string"

/-- Bad iterator seek message. -/
def iterSeekErr (path : String) : String :=
  "DB " ++ path ++ ": Iterator seek must be a string"

/-- `str(TypeError)` from `next(None)`. -/
def mNoneIter : String := sqStr ++ "NoneType" ++ sqStr ++ " object is not an iterator"

/-- `str(AttributeError)` from calling a method on `None`. -/
def noneAttrErr (attr : String) : String :=
  sqStr ++ "NoneType" ++ sqStr ++ " object has no attribute " ++ sqStr ++ attr ++ sqStr

/-- `RuntimeError("Nesting iterators")`. -/
def mNesting : String := "Nesting iterators"

/-- `RuntimeError("Nesting batches")`. -/
def mNestingB : String := "Nesting batches"

/-- `RuntimeError(f"Malformed request data: {repr(request)[0:125]}...")`. -/
def mMalformed (req : PyVal) : String :=
  "Malformed request data: " ++ strTake 125 (pyRepr req) ++ "..."

/-- `RuntimeError(f"Unsupported method: {repr(method)[0:125]}...")`. -/
def mUnsupported (m : PyVal) : String :=
  "Unsupported method: " ++ strTake 125 (pyRepr m) ++ "..."

/-- One broker-side iterator session.  `db.iterator(...)` is a generator,
so argument checks and the snapshot happen at the first `next`; a
generator that raised behaves like an exhausted one afterwards. -/
inductive IterSt where
  | fresh (pfx rev seek : PyVal)
  | running (pfx : String) (items : KV)
  | dead

/-- A single pending write of a batch generator. -/
inductive KVOp where
  | kput (k : String) (v : PyVal)
  | kdel (k : String)

/-- One broker-side batch session: the `_batch` generator buffers writes
in the plyvel write batch until closed; a generator that raised is
finished (`dead`) with the transaction discarded. -/
inductive BatchSt where
  | live (ops : List KVOp)
  | dead

/-- Applying one buffered write. -/
def kvApplyOp (kv : KV) : KVOp → KV
  | .kput k v => kvPut kv k v
  | .kdel k => kvDel kv k

/-- Committing a batch in order. -/
def kvApplyOps (kv : KV) (ops : List KVOp) : KV := ops.foldl kvApplyOp kv

/-- Per-slot broker state: `iterators[i]` and `batches[i]`. -/
structure BrokerSlot where
  iter : Option IterSt
  batch : Option BatchSt

/-- `prefix = prefix or ""`. -/
def orEmptyStr (p : PyVal) : PyVal := if pyTruthy p then p else .vstr ""

/-- The argument checks `_DB.iterator` performs when the generator first
runs: default the prefix, then the two isinstance checks in source
order. -/
def iterChecks (path : String) (p s : PyVal) : Except String (String × Option String) :=
  match orEmptyStr p with
  | .vstr pfx =>
    match s with
    | .vnone => .ok (pfx, none)
    | .vstr sk => .ok (pfx, some sk)
    | _ => .error (iterSeekErr path)
  | _ => .error (iterPfxErr path)

/-- One `next()` on an iterator session: `.ok none` is `StopIteration`
(also what an already-finished generator raises); `.error` is a raised
exception (a failed argument check, or a yielded value whose stored
bytes `literal_eval` rejects, db.py line 149), which leaves a finished
generator behind.  The second component is the generator state after
the call. -/
def nextIter (path : String) (kv : KV) : IterSt →
    Except String (Option (String × PyVal)) × Option IterSt
  | .fresh p r s =>
    match iterChecks path p s with
    | .error e => (.error e, some .dead)
    | .ok (pfx, sk) =>
      match kvIter kv pfx (pyTruthy r) sk with
      | [] => (.ok none, some .dead)
      | x :: rest =>
        if pyDecodable x.2 then
          (.ok (some (strDrop x.1 pfx.length, x.2)), some (.running pfx rest))
        else (.error (invalidValIterErr path x.2 x.1), some .dead)
  | .running _ [] => (.ok none, some .dead)
  | .running pfx (x :: rest) =>
    if pyDecodable x.2 then
      (.ok (some (strDrop x.1 pfx.length, x.2)), some (.running pfx rest))
    else (.error (invalidValIterErr path x.2 x.1), some .dead)
  | .dead => (.ok none, some .dead)

/-- `method == 'put'` branch: `db.put(key, val)` then `{'result': True}`. -/
def doPut (path : String) (kv : KV) (sl : BrokerSlot) (key v : PyVal) :
    KV × BrokerSlot × Except String PyVal :=
  match key with
  | .vstr k => (kvPut kv k v, sl, .ok (.vbool true))
  | _ => (kv, sl, .error (dbKeyErr path))

/-- `method == 'delete'` branch. -/
def doDelete (path : String) (kv : KV) (sl : BrokerSlot) (key : PyVal) :
    KV × BrokerSlot × Except String PyVal :=
  match key with
  | .vstr k => (kvDel kv k, sl, .ok (.vbool true))
  | _ => (kv, sl, .error (dbKeyErr path))

/-- `method == 'get'` branch: a missing key replies `{'result': None}`;
a stored value whose bytes `literal_eval` rejects raises the
untruncated `Invalid Value` RuntimeError (db.py lines 86-89). -/
def doGet (path : String) (kv : KV) (sl : BrokerSlot) (key : PyVal) :
    KV × BrokerSlot × Except String PyVal :=
  match key with
  | .vstr k =>
    match kvGet kv k with
    | none => (kv, sl, .ok .vnone)
    | some v =>
      if pyDecodable v then (kv, sl, .ok v)
      else (kv, sl, .error (invalidValErr path v k))
  | _ => (kv, sl, .error (dbKeyErr path))

/-- `method == 'iterator'` branch: a second iterator on the slot raises
`Nesting iterators` and leaves the open one in place; otherwise the
generator is created (argument checks deferred to the first `next`). -/
def doIterator (kv : KV) (sl : BrokerSlot) (p r s : PyVal) :
    KV × BrokerSlot × Except String PyVal :=
  match sl.iter with
  | some _ => (kv, sl, .error mNesting)
  | none => (kv, { sl with iter := some (.fresh p r s) }, .ok (.vbool true))

/-- `method == 'next'` branch: `next(None)` raises a `TypeError`;
`StopIteration` closes and clears the session and replies with the
`'StopIteration'` string; otherwise the `(suffix, value)` tuple is
returned. -/
def doNext (path : String) (kv : KV) (sl : BrokerSlot) :
    KV × BrokerSlot × Except String PyVal :=
  match sl.iter with
  | none => (kv, sl, .error mNoneIter)
  | some st =>
    match nextIter path kv st with
    | (.error e, st2) => (kv, { sl with iter := st2 }, .error e)
    | (.ok none, _) => (kv, { sl with iter := none }, .ok (.vstr "StopIteration"))
    | (.ok (some (k, v)), st2) =>
      (kv, { sl with iter := st2 }, .ok (.vtuple [.vstr k, v]))

/-- `method == 'close'` branch: close whatever is open (may be repeated)
and always reply `True`. -/
def doClose (kv : KV) (sl : BrokerSlot) :
    KV × BrokerSlot × Except String PyVal :=
  (kv, { sl with iter := none }, .ok (.vbool true))

/-- `method == 'batch_enter'` branch. -/
def doBatchEnter (kv : KV) (sl : BrokerSlot) :
    KV × BrokerSlot × Except String PyVal :=
  match sl.batch with
  | some _ => (kv, sl, .error mNestingB)
  | none => (kv, { sl with batch := some (.live []) }, .ok (.vbool true))

/-- `method == 'batch_put'` branch: `None.send` raises an
`AttributeError`; sending into a finished generator raises a bare
`StopIteration` (empty text); a non-string key raises inside the
generator, killing it and discarding the transaction. -/
def doBatchPut (path : String) (kv : KV) (sl : BrokerSlot) (key v : PyVal) :
    KV × BrokerSlot × Except String PyVal :=
  match sl.batch with
  | none => (kv, sl, .error (noneAttrErr "send"))
  | some .dead => (kv, sl, .error "")
  | some (.live ops) =>
    match key with
    | .vstr k =>
      (kv, { sl with batch := some (.live (ops ++ [.kput k v])) }, .ok (.vbool true))
    | _ => (kv, { sl with batch := some .dead }, .error (wbKeyErr path))

/-- `method == 'batch_delete'` branch (`WriteBatch.delete` uses the `DB`
message prefix, db.py line 199). -/
def doBatchDelete (path : String) (kv : KV) (sl : BrokerSlot) (key : PyVal) :
    KV × BrokerSlot × Except String PyVal :=
  match sl.batch with
  | none => (kv, sl, .error (noneAttrErr "send"))
  | some .dead => (kv, sl, .error "")
  | some (.live ops) =>
    match key with
    | .vstr k =>
      (kv, { sl with batch := some (.live (ops ++ [.kdel k])) }, .ok (.vbool true))
    | _ => (kv, { sl with batch := some .dead }, .error (dbKeyErr path))

/-- `method == 'batch_exit'` branch: closing a live generator lets its
`except GeneratorExit: pass` finish the `with`-block normally, committing
the batch; closing a finished one is a no-op; `None.close` raises. -/
def doBatchExit (kv : KV) (sl : BrokerSlot) :
    KV × BrokerSlot × Except String PyVal :=
  match sl.batch with
  | none => (kv, sl, .error (noneAttrErr "close"))
  | some (.live ops) => (kvApplyOps kv ops, { sl with batch := none }, .ok (.vbool true))
  | some .dead => (kv, { sl with batch := none }, .ok (.vbool true))

/-- `method == 'batch_error'` branch: the thrown `EOFError` discards the
transaction (also out of a finished generator), is caught, and the
generator is closed; `None.throw` raises. -/
def doBatchError (kv : KV) (sl : BrokerSlot) :
    KV × BrokerSlot × Except String PyVal :=
  match sl.batch with
  | none => (kv, sl, .error (noneAttrErr "throw"))
  | some _ => (kv, { sl with batch := none }, .ok (.vbool true))

/-- The request dispatch of `MDB.__maintainer` (mdb.py lines 356-460):
the method chain in source order; a raised exception becomes the
`.error` text (the `str` of the exception) for the catch-all handler. -/
def dispatch (path : String) (kv : KV) (sl : BrokerSlot) (req : PyVal) :
    KV × BrokerSlot × Except String PyVal :=
  match req with
  | .vdict entries =>
    if isMethod (reqGet entries "method") "put" then
      doPut path kv sl (reqGet entries "key") (reqGet entries "val")
    else if isMethod (reqGet entries "method") "delete" then
      doDelete path kv sl (reqGet entries "key")
    else if isMethod (reqGet entries "method") "get" then
      doGet path kv sl (reqGet entries "key")
    else if isMethod (reqGet entries "method") "iterator" then
      doIterator kv sl (reqGet entries "prefix") (reqGet entries "reverse")
        (reqGet entries "seek")
    else if isMethod (reqGet entries "method") "next" then
      doNext path kv sl
    else if isMethod (reqGet entries "method") "close" then
      doClose kv sl
    else if isMethod (reqGet entries "method") "batch_enter" then
      doBatchEnter kv sl
    else if isMethod (reqGet entries "method") "batch_put" then
      doBatchPut path kv sl (reqGet entries "key") (reqGet entries "val")
    else if isMethod (reqGet entries "method") "batch_delete" then
      doBatchDelete path kv sl (reqGet entries "key")
    else if isMethod (reqGet entries "method") "batch_exit" then
      doBatchExit kv sl
    else if isMethod (reqGet entries "method") "batch_error" then
      doBatchError kv sl
    else (kv, sl, .error (mUnsupported (reqGet entries "method")))
  | other => (kv, sl, .error (mMalformed other))

/-- The reply frame for a caught exception: `repr({'error': str(e)})`. -/
def errFrame (e : String) : String := pyRepr (.vdict [(.vstr "error", .vstr e)])

/-- The reply frame for a result: `repr({'result': val})`. -/
def resFrame (v : PyVal) : String := pyRepr (.vdict [(.vstr "result", v)])

/-- Whether a reply plus its NUL terminator fits the slot frame. -/
def frameFits (f : String) : Bool := strByteLen f + 1 ≤ BLOCK_SIZE

/-- One full broker step on a slot in REQUEST state: dispatch, then write
the reply and set the state byte to RESPONCE.  An oversized result reply
raises `BufferError` inside the `try`, so the catch-all turns it into the
empty-text error reply; only an oversized ERROR reply escapes the loop
and crashes the broker (`none`). -/
def brokerStep (path : String) (kv : KV) (sl : BrokerSlot) (req : PyVal) :
    Option (KV × BrokerSlot × String × Nat) :=
  match dispatch path kv sl req with
  | (kv2, sl2, .ok v) =>
    if frameFits (resFrame v) then some (kv2, sl2, resFrame v, STATE_RESPONCE)
    else if frameFits (errFrame "") then some (kv2, sl2, errFrame "", STATE_RESPONCE)
    else none
  | (kv2, sl2, .error e) =>
    if frameFits (errFrame e) then some (kv2, sl2, errFrame e, STATE_RESPONCE)
    else none

theorem pyRepr_vstr (s : String) : pyRepr (.vstr s) = pyStrRepr s := by
  simp only [pyRepr]

theorem pyRepr_vdict (l : List (PyVal × PyVal)) :
    pyRepr (.vdict l) = "\x7b" ++ pyReprJoinKV l ++ "\x7d" := by
  simp only [pyRepr]

theorem pyReprJoinKV_single (k v : PyVal) :
    pyReprJoinKV [(k, v)] = pyRepr k ++ ": " ++ pyRepr v := by
  simp only [pyReprJoinKV]

theorem strLen_append (a b : String) : (a ++ b).length = a.length + b.length := by
  show (a.data ++ b.data).length = a.data.length + b.data.length
  exact List.length_append a.data b.data

theorem strByteLen_append (a b : String) :
    strByteLen (a ++ b) = strByteLen a + strByteLen b := by
  show byteLenL (a.data ++ b.data) = byteLenL a.data + byteLenL b.data
  unfold byteLenL
  rw [List.map_append, List.sum_append]

theorem byteLenL_cons (c : Char) (l : List Char) :
    byteLenL (c :: l) = c.utf8Size + byteLenL l := by
  unfold byteLenL
  rw [List.map_cons, List.sum_cons]

theorem byteLenL_escape_le (l : List Char) : byteLenL (pyStrEscape l) ≤ 5 * l.length := by
  induction l with
  | nil => simp [pyStrEscape, byteLenL]
  | cons c t ih =>
    unfold pyStrEscape at ih ⊢
    rw [List.foldr_cons]
    by_cases hc : c = sq ∨ c = bsl
    · rw [if_pos hc]
      rw [byteLenL_cons, byteLenL_cons]
      have hb : bsl.utf8Size = 1 := rfl
      have h4 : c.utf8Size ≤ 4 := Char.utf8Size_le_four c
      rw [hb, List.length_cons]
      omega
    · rw [if_neg hc, byteLenL_cons, List.length_cons]
      have h4 : c.utf8Size ≤ 4 := Char.utf8Size_le_four c
      omega

theorem strByteLen_pyStrRepr_le (s : String) :
    strByteLen (pyStrRepr s) ≤ 5 * s.length + 2 := by
  show byteLenL (sq :: (pyStrEscape s.data ++ [sq])) ≤ 5 * s.length + 2
  rw [byteLenL_cons]
  have hsplit : byteLenL (pyStrEscape s.data ++ [sq]) =
      byteLenL (pyStrEscape s.data) + byteLenL [sq] := by
    unfold byteLenL
    rw [List.map_append, List.sum_append]
  rw [hsplit]
  have h1 : sq.utf8Size = 1 := rfl
  have h2 : byteLenL [sq] = 1 := rfl
  have h3 := byteLenL_escape_le s.data
  have h4 : s.length = s.data.length := rfl
  omega

theorem errFrame_byteLen_le (e : String) :
    strByteLen (errFrame e) ≤ 5 * e.length + 13 := by
  unfold errFrame
  rw [pyRepr_vdict, pyReprJoinKV_single, pyRepr_vstr, pyRepr_vstr]
  simp only [strByteLen_append]
  have h1 : strByteLen "\x7b" = 1 := rfl
  have h2 : strByteLen (pyStrRepr "error") = 7 := rfl
  have h3 : strByteLen ": " = 2 := rfl
  have h4 : strByteLen "\x7d" = 1 := rfl
  have h5 := strByteLen_pyStrRepr_le e
  omega

theorem strTake_length_le (n : Nat) (s : String) : (strTake n s).length ≤ n := by
  have h : (strTake n s).length = (s.data.take n).length := rfl
  rw [h, List.length_take]
  exact Nat.min_le_left _ _

theorem dbKeyErr_len (path : String) : (dbKeyErr path).length = path.length + 25 := by
  unfold dbKeyErr
  simp only [strLen_append]
  have h1 : ("DB " : String).length = 3 := rfl
  have h2 : (": key must be a string" : String).length = 22 := rfl
  omega

theorem wbKeyErr_len (path : String) : (wbKeyErr path).length = path.length + 25 := by
  unfold wbKeyErr
  simp only [strLen_append]
  have h1 : ("WB " : String).length = 3 := rfl
  have h2 : (": key must be a string" : String).length = 22 := rfl
  omega

theorem iterPfxErr_len (path : String) : (iterPfxErr path).length = path.length + 37 := by
  unfold iterPfxErr
  simp only [strLen_append]
  have h1 : ("DB " : String).length = 3 := rfl
  have h2 : (": Iterator prefix must be a string" : String).length = 34 := rfl
  omega

theorem iterSeekErr_len (path : String) : (iterSeekErr path).length = path.length + 35 := by
  unfold iterSeekErr
  simp only [strLen_append]
  have h1 : ("DB " : String).length = 3 := rfl
  have h2 : (": Iterator seek must be a string" : String).length = 32 := rfl
  omega

theorem noneAttrErr_len (attr : String) : (noneAttrErr attr).length = attr.length + 37 := by
  unfold noneAttrErr
  simp only [strLen_append]
  have h1 : sqStr.length = 1 := rfl
  have h2 : ("NoneType" : String).length = 8 := rfl
  have h3 : (" object has no attribute " : String).length = 25 := rfl
  omega

theorem mNoneIter_len : mNoneIter.length = 36 := rfl

theorem mMalformed_len_le (v : PyVal) : (mMalformed v).length ≤ 152 := by
  unfold mMalformed
  simp only [strLen_append]
  have h1 : ("Malformed request data: " : String).length = 24 := rfl
  have h2 : ("..." : String).length = 3 := rfl
  have h3 := strTake_length_le 125 (pyRepr v)
  omega

theorem mUnsupported_len_le (v : PyVal) : (mUnsupported v).length ≤ 148 := by
  unfold mUnsupported
  simp only [strLen_append]
  have h1 : ("Unsupported method: " : String).length = 20 := rfl
  have h2 : ("..." : String).length = 3 := rfl
  have h3 := strTake_length_le 125 (pyRepr v)
  omega

theorem doPut_error {path : String} {kv : KV} {sl : BrokerSlot} {key v : PyVal} {e : String}
    (h : (doPut path kv sl key v).2.2 = .error e) : e = dbKeyErr path := by
  cases key <;> simp only [doPut] at h <;>
    first
      | exact Except.noConfusion h
      | (injection h with h2; exact h2.symm)

theorem doDelete_error {path : String} {kv : KV} {sl : BrokerSlot} {key : PyVal} {e : String}
    (h : (doDelete path kv sl key).2.2 = .error e) : e = dbKeyErr path := by
  cases key <;> simp only [doDelete] at h <;>
    first
      | exact Except.noConfusion h
      | (injection h with h2; exact h2.symm)

theorem kvGet_decodable {kv : KV} {k : String} {v : PyVal}
    (hdec : ∀ p ∈ kv, pyDecodable p.2 = true) (hg : kvGet kv k = some v) :
    pyDecodable v = true := by
  unfold kvGet at hg
  cases hf : kv.find? (fun p => p.1 == k) with
  | none => rw [hf] at hg; exact Option.noConfusion hg
  | some p =>
    rw [hf] at hg
    injection hg with h2
    rw [← h2]
    exact hdec p (List.mem_of_find?_eq_some hf)

theorem mem_kvInsertSorted {p q : String × PyVal} {l : KV}
    (h : p ∈ kvInsertSorted q l) : p = q ∨ p ∈ l := by
  induction l with
  | nil =>
    unfold kvInsertSorted at h
    rcases List.mem_cons.mp h with h1 | h2
    · exact Or.inl h1
    · exact absurd h2 (List.not_mem_nil p)
  | cons r rest ih =>
    unfold kvInsertSorted at h
    by_cases hle : strLe q.1 r.1 = true
    · rw [if_pos hle] at h
      rcases List.mem_cons.mp h with h1 | h2
      · exact Or.inl h1
      · exact Or.inr h2
    · rw [if_neg hle] at h
      rcases List.mem_cons.mp h with h1 | h2
      · exact Or.inr (List.mem_cons.mpr (Or.inl h1))
      · rcases ih h2 with h3 | h4
        · exact Or.inl h3
        · exact Or.inr (List.mem_cons.mpr (Or.inr h4))

theorem mem_kvSortByKey {p : String × PyVal} {kv : KV}
    (h : p ∈ kvSortByKey kv) : p ∈ kv := by
  induction kv with
  | nil => exact absurd h (List.not_mem_nil p)
  | cons q rest ih =>
    have h2 : p ∈ kvInsertSorted q (kvSortByKey rest) := h
    rcases mem_kvInsertSorted h2 with h3 | h4
    · exact List.mem_cons.mpr (Or.inl h3)
    · exact List.mem_cons.mpr (Or.inr (ih h4))

theorem kvIter_mem {kv : KV} {pfx : String} {rev : Bool} {sk : Option String}
    {x : String × PyVal} (h : x ∈ kvIter kv pfx rev sk) : x ∈ kv := by
  apply mem_kvSortByKey
  unfold kvIter at h
  have h2 := (List.mem_filter.mp h).1
  cases sk with
  | none =>
    cases rev with
    | true => exact List.mem_reverse.mp h2
    | false => exact h2
  | some s =>
    cases rev with
    | true => exact (List.mem_filter.mp (List.mem_reverse.mp h2)).1
    | false => exact (List.mem_filter.mp h2).1

theorem doGet_error_bounded {path : String} {kv : KV} {sl : BrokerSlot} {key : PyVal}
    {e : String} (hdec : ∀ p ∈ kv, pyDecodable p.2 = true)
    (h : (doGet path kv sl key).2.2 = .error e) : e = dbKeyErr path := by
  cases key
  case vstr k =>
    simp only [doGet] at h
    cases hg : kvGet kv k with
    | none => simp only [hg] at h; exact Except.noConfusion h
    | some v =>
      simp only [hg] at h
      rw [if_pos (kvGet_decodable hdec hg)] at h
      exact Except.noConfusion h
  all_goals
    simp only [doGet] at h
  all_goals
    injection h with h2
  all_goals
    exact h2.symm

theorem doIterator_error {kv : KV} {sl : BrokerSlot} {p r s : PyVal} {e : String}
    (h : (doIterator kv sl p r s).2.2 = .error e) : e = mNesting := by
  cases hit : sl.iter <;> simp only [doIterator, hit] at h <;>
    first
      | exact Except.noConfusion h
      | (injection h with h2; exact h2.symm)

theorem iterChecks_error {path : String} {p s : PyVal} {e : String}
    (h : iterChecks path p s = .error e) :
    e = iterPfxErr path ∨ e = iterSeekErr path := by
  cases ho : orEmptyStr p <;> cases s <;> simp only [iterChecks, ho] at h <;>
    first
      | exact Except.noConfusion h
      | (injection h with h2; exact Or.inl h2.symm)
      | (injection h with h2; exact Or.inr h2.symm)

theorem nextIter_error_bounded {path : String} {kv : KV} {st : IterSt} {e : String}
    {st2 : Option IterSt}
    (hdec : ∀ p ∈ kv, pyDecodable p.2 = true)
    (hst : ∀ pfx items, st = .running pfx items → ∀ x ∈ items, pyDecodable x.2 = true)
    (h : nextIter path kv st = (.error e, st2)) :
    e = iterPfxErr path ∨ e = iterSeekErr path := by
  cases st with
  | fresh p r s =>
    cases hic : iterChecks path p s with
    | error e2 =>
      simp only [nextIter, hic] at h
      rw [Prod.mk.injEq] at h
      injection h.1 with h2
      rw [← h2]
      exact iterChecks_error hic
    | ok pr =>
      obtain ⟨pfx, sk⟩ := pr
      simp only [nextIter, hic] at h
      cases hkv : kvIter kv pfx (pyTruthy r) sk with
      | nil =>
        simp only [hkv] at h
        rw [Prod.mk.injEq] at h
        exact Except.noConfusion h.1
      | cons x rest =>
        simp only [hkv] at h
        have hx : pyDecodable x.2 = true :=
          hdec x (kvIter_mem (hkv ▸ List.mem_cons_self x rest))
        rw [if_pos hx] at h
        rw [Prod.mk.injEq] at h
        exact Except.noConfusion h.1
  | running pfx items =>
    cases items with
    | nil =>
      simp only [nextIter] at h
      rw [Prod.mk.injEq] at h
      exact Except.noConfusion h.1
    | cons x rest =>
      have hx : pyDecodable x.2 = true :=
        hst pfx (x :: rest) rfl x (List.mem_cons_self x rest)
      simp only [nextIter] at h
      rw [if_pos hx] at h
      rw [Prod.mk.injEq] at h
      exact Except.noConfusion h.1
  | dead =>
    simp only [nextIter] at h
    rw [Prod.mk.injEq] at h
    exact Except.noConfusion h.1

theorem doNext_error_bounded {path : String} {kv : KV} {sl : BrokerSlot} {e : String}
    (hdec : ∀ p ∈ kv, pyDecodable p.2 = true)
    (hsl : ∀ pfx items, sl.iter = some (.running pfx items) →
      ∀ x ∈ items, pyDecodable x.2 = true)
    (h : (doNext path kv sl).2.2 = .error e) :
    e = mNoneIter ∨ e = iterPfxErr path ∨ e = iterSeekErr path := by
  cases hit : sl.iter with
  | none =>
    simp only [doNext, hit] at h
    injection h with h2
    exact Or.inl h2.symm
  | some st =>
    simp only [doNext, hit] at h
    rcases hnn : nextIter path kv st with ⟨res, st2⟩
    cases res with
    | error e2 =>
      simp only [hnn] at h
      injection h with h2
      rw [← h2]
      refine Or.inr (nextIter_error_bounded hdec ?_ hnn)
      intro pfx items hst x hx
      exact hsl pfx items (by rw [hit, hst]) x hx
    | ok o =>
      cases o with
      | none => simp only [hnn] at h; exact Except.noConfusion h
      | some p =>
        obtain ⟨k, v⟩ := p
        simp only [hnn] at h
        exact Except.noConfusion h

theorem doBatchEnter_error {kv : KV} {sl : BrokerSlot} {e : String}
    (h : (doBatchEnter kv sl).2.2 = .error e) : e = mNestingB := by
  cases hb : sl.batch <;> simp only [doBatchEnter, hb] at h <;>
    first
      | exact Except.noConfusion h
      | (injection h with h2; exact h2.symm)

theorem doBatchPut_error {path : String} {kv : KV} {sl : BrokerSlot} {key v : PyVal}
    {e : String} (h : (doBatchPut path kv sl key v).2.2 = .error e) :
    e = noneAttrErr "send" ∨ e = "" ∨ e = wbKeyErr path := by
  cases hb : sl.batch with
  | none =>
    simp only [doBatchPut, hb] at h
    injection h with h2
    exact Or.inl h2.symm
  | some bst =>
    cases bst with
    | dead =>
      simp only [doBatchPut, hb] at h
      injection h with h2
      exact Or.inr (Or.inl h2.symm)
    | live ops =>
      cases key <;> simp only [doBatchPut, hb] at h <;>
        first
          | exact Except.noConfusion h
          | (injection h with h2; exact Or.inr (Or.inr h2.symm))

theorem doBatchDelete_error {path : String} {kv : KV} {sl : BrokerSlot} {key : PyVal}
    {e : String} (h : (doBatchDelete path kv sl key).2.2 = .error e) :
    e = noneAttrErr "send" ∨ e = "" ∨ e = dbKeyErr path := by
  cases hb : sl.batch with
  | none =>
    simp only [doBatchDelete, hb] at h
    injection h with h2
    exact Or.inl h2.symm
  | some bst =>
    cases bst with
    | dead =>
      simp only [doBatchDelete, hb] at h
      injection h with h2
      exact Or.inr (Or.inl h2.symm)
    | live ops =>
      cases key <;> simp only [doBatchDelete, hb] at h <;>
        first
          | exact Except.noConfusion h
          | (injection h with h2; exact Or.inr (Or.inr h2.symm))

theorem doBatchExit_error {kv : KV} {sl : BrokerSlot} {e : String}
    (h : (doBatchExit kv sl).2.2 = .error e) : e = noneAttrErr "close" := by
  cases hb : sl.batch with
  | none =>
    simp only [doBatchExit, hb] at h
    injection h with h2
    exact h2.symm
  | some bst =>
    cases bst <;> simp only [doBatchExit, hb] at h <;> exact Except.noConfusion h

theorem doBatchError_error {kv : KV} {sl : BrokerSlot} {e : String}
    (h : (doBatchError kv sl).2.2 = .error e) : e = noneAttrErr "throw" := by
  cases hb : sl.batch with
  | none =>
    simp only [doBatchError, hb] at h
    injection h with h2
    exact h2.symm
  | some bst =>
    simp only [doBatchError, hb] at h
    exact Except.noConfusion h

set_option maxHeartbeats 2000000 in
theorem dispatch_error_len {path : String} {kv : KV} {sl : BrokerSlot} {req : PyVal}
    {e : String}
    (hdec : ∀ p ∈ kv, pyDecodable p.2 = true)
    (hsl : ∀ pfx items, sl.iter = some (.running pfx items) →
      ∀ x ∈ items, pyDecodable x.2 = true)
    (h : (dispatch path kv sl req).2.2 = .error e) :
    e.length ≤ path.length + 152 := by
  cases req with
  | vdict entries =>
    simp only [dispatch] at h
    simp only [apply_ite (fun x : KV × BrokerSlot × Except String PyVal => x.2.2)] at h
    split_ifs at h
    · rw [doPut_error h, dbKeyErr_len]; omega
    · rw [doDelete_error h, dbKeyErr_len]; omega
    · rw [doGet_error_bounded hdec h, dbKeyErr_len]; omega
    · rw [doIterator_error h]
      have : mNesting.length = 17 := rfl
      omega
    · rcases doNext_error_bounded hdec hsl h with h2 | h2 | h2 <;> rw [h2]
      · rw [mNoneIter_len]; omega
      · rw [iterPfxErr_len]; omega
      · rw [iterSeekErr_len]; omega
    · exact Except.noConfusion h
    · rw [doBatchEnter_error h]
      have : mNestingB.length = 15 := rfl
      omega
    · rcases doBatchPut_error h with h2 | h2 | h2 <;> rw [h2]
      · rw [noneAttrErr_len]
        have : ("send" : String).length = 4 := rfl
        omega
      · have : ("" : String).length = 0 := rfl
        omega
      · rw [wbKeyErr_len]; omega
    · rcases doBatchDelete_error h with h2 | h2 | h2 <;> rw [h2]
      · rw [noneAttrErr_len]
        have : ("send" : String).length = 4 := rfl
        omega
      · have : ("" : String).length = 0 := rfl
        omega
      · rw [dbKeyErr_len]; omega
    · rw [doBatchExit_error h, noneAttrErr_len]
      have : ("close" : String).length = 5 := rfl
      omega
    · rw [doBatchError_error h, noneAttrErr_len]
      have : ("throw" : String).length = 5 := rfl
      omega
    · injection h with h2
      rw [← h2]
      have := mUnsupported_len_le (reqGet entries "method")
      omega
  | vint n =>
    simp only [dispatch] at h
    injection h with h2
    rw [← h2]
    have := mMalformed_len_le (PyVal.vint n)
    omega
  | vstr s =>
    simp only [dispatch] at h
    injection h with h2
    rw [← h2]
    have := mMalformed_len_le (PyVal.vstr s)
    omega
  | vbool b =>
    simp only [dispatch] at h
    injection h with h2
    rw [← h2]
    have := mMalformed_len_le (PyVal.vbool b)
    omega
  | vnone =>
    simp only [dispatch] at h
    injection h with h2
    rw [← h2]
    have := mMalformed_len_le PyVal.vnone
    omega
  | vinf =>
    simp only [dispatch] at h
    injection h with h2
    rw [← h2]
    have := mMalformed_len_le PyVal.vinf
    omega
  | vlist l =>
    simp only [dispatch] at h
    injection h with h2
    rw [← h2]
    have := mMalformed_len_le (PyVal.vlist l)
    omega
  | vtuple l =>
    simp only [dispatch] at h
    injection h with h2
    rw [← h2]
    have := mMalformed_len_le (PyVal.vtuple l)
    omega

theorem byteLenL_escape_ge (l : List Char) : l.length ≤ byteLenL (pyStrEscape l) := by
  induction l with
  | nil => simp [pyStrEscape, byteLenL]
  | cons c t ih =>
    unfold pyStrEscape at ih ⊢
    rw [List.foldr_cons]
    by_cases hc : c = sq ∨ c = bsl
    · rw [if_pos hc, byteLenL_cons, byteLenL_cons, List.length_cons]
      have h1 := Char.utf8Size_pos c
      have h2 := Char.utf8Size_pos bsl
      omega
    · rw [if_neg hc, byteLenL_cons, List.length_cons]
      have h1 := Char.utf8Size_pos c
      omega

theorem strByteLen_pyStrRepr_ge (s : String) : s.length + 2 ≤ strByteLen (pyStrRepr s) := by
  show s.length + 2 ≤ byteLenL (sq :: (pyStrEscape s.data ++ [sq]))
  rw [byteLenL_cons]
  have hsplit : byteLenL (pyStrEscape s.data ++ [sq]) =
      byteLenL (pyStrEscape s.data) + byteLenL [sq] := by
    unfold byteLenL
    rw [List.map_append, List.sum_append]
  rw [hsplit]
  have h1 : sq.utf8Size = 1 := rfl
  have h2 : byteLenL [sq] = 1 := rfl
  have h3 := byteLenL_escape_ge s.data
  have h4 : s.length = s.data.length := rfl
  omega

theorem errFrame_byteLen_ge (e : String) : e.length + 13 ≤ strByteLen (errFrame e) := by
  unfold errFrame
  rw [pyRepr_vdict, pyReprJoinKV_single, pyRepr_vstr, pyRepr_vstr]
  simp only [strByteLen_append]
  have h1 : strByteLen "\x7b" = 1 := rfl
  have h2 : strByteLen (pyStrRepr "error") = 7 := rfl
  have h3 : strByteLen ": " = 2 := rfl
  have h4 : strByteLen "\x7d" = 1 := rfl
  have h5 := strByteLen_pyStrRepr_ge e
  omega

theorem pyRepr_vinf : pyRepr PyVal.vinf = "inf" := by
  simp only [pyRepr]

theorem brokerStep_error_none {path : String} {kv : KV} {sl : BrokerSlot} {req : PyVal}
    {kv2 : KV} {sl2 : BrokerSlot} {e : String}
    (hd : dispatch path kv sl req = (kv2, sl2, .error e))
    (hff : frameFits (errFrame e) = false) :
    brokerStep path kv sl req = none := by
  simp only [brokerStep, hd]
  rw [if_neg (by simp [hff])]

theorem doGet_invalid (path : String) (kv : KV) (sl : BrokerSlot) (k : String) (v : PyVal)
    (hg : kvGet kv k = some v) (hv : pyDecodable v = false) :
    doGet path kv sl (.vstr k) = (kv, sl, .error (invalidValErr path v k)) := by
  simp only [doGet, hg]
  rw [if_neg (by simp [hv])]

theorem kvGet_single (k : String) (v : PyVal) : kvGet [(k, v)] k = some v := by
  unfold kvGet
  have hf : List.find? (fun p => p.1 == k) [(k, v)] = some (k, v) := by
    simp [List.find?_cons]
  rw [hf]
  rfl

/-- A 16400-character key: long enough that the untruncated `Invalid
Value` message cannot fit the 16 KiB frame. -/
def bigKey : String := String.mk (List.replicate 16400 'a')

/-- C1 counterexample: the broker CAN crash.  A put request stores the
float infinity (`literal_eval('1e999')` overflows to `inf`, so the
value arrives through a perfectly legal frame); its stored bytes
`repr(inf).encode() = b'inf'` are rejected by `literal_eval` on read,
so a get raises `RuntimeError(f"DB {path}: Invalid Value {val} for key
{key}")` — a text that embeds the stored bytes and the full key with NO
truncation.  Under a long enough key the message alone exceeds
BLOCK_SIZE, so `__put_data` raises `BufferError` inside the catch-all
`except` handler itself, the exception escapes the maintainer loop and
the broker dies (`brokerStep = none`): no reply, no RESPONCE state. -/
theorem C1_error_reply_cex :
    dispatch "DB" [] ⟨none, none⟩
        (.vdict [(.vstr "method", .vstr "put"), (.vstr "key", .vstr bigKey),
          (.vstr "val", PyVal.vinf)])
      = ([(bigKey, PyVal.vinf)], ⟨none, none⟩, Except.ok (PyVal.vbool true)) ∧
    dispatch "DB" [(bigKey, PyVal.vinf)] ⟨none, none⟩
        (.vdict [(.vstr "method", .vstr "get"), (.vstr "key", .vstr bigKey)])
      = ([(bigKey, PyVal.vinf)], ⟨none, none⟩,
          Except.error (invalidValErr "DB" PyVal.vinf bigKey)) ∧
    16384 < (invalidValErr "DB" PyVal.vinf bigKey).length ∧
    brokerStep "DB" [(bigKey, PyVal.vinf)] ⟨none, none⟩
        (.vdict [(.vstr "method", .vstr "get"), (.vstr "key", .vstr bigKey)])
      = none := by
  have hget : kvGet [(bigKey, PyVal.vinf)] bigKey = some PyVal.vinf :=
    kvGet_single bigKey PyVal.vinf
  have hdecv : pyDecodable PyVal.vinf = false := by simp [pyDecodable]
  have hdg : doGet "DB" [(bigKey, PyVal.vinf)] ⟨none, none⟩ (.vstr bigKey)
      = ([(bigKey, PyVal.vinf)], ⟨none, none⟩,
          Except.error (invalidValErr "DB" PyVal.vinf bigKey)) :=
    doGet_invalid "DB" [(bigKey, PyVal.vinf)] ⟨none, none⟩ bigKey PyVal.vinf hget hdecv
  have hkey : reqGet [((PyVal.vstr "method"), (PyVal.vstr "get")),
      ((PyVal.vstr "key"), (PyVal.vstr bigKey))] "key" = PyVal.vstr bigKey := rfl
  have hdisp : dispatch "DB" [(bigKey, PyVal.vinf)] ⟨none, none⟩
      (.vdict [(.vstr "method", .vstr "get"), (.vstr "key", .vstr bigKey)])
      = ([(bigKey, PyVal.vinf)], ⟨none, none⟩,
          Except.error (invalidValErr "DB" PyVal.vinf bigKey)) := by
    have hm : reqGet [((PyVal.vstr "method"), (PyVal.vstr "get")),
        ((PyVal.vstr "key"), (PyVal.vstr bigKey))] "method" = PyVal.vstr "get" := rfl
    simp only [dispatch, hm, isMethod]
    rw [if_neg (by decide), if_neg (by decide), if_pos (by decide)]
    rw [hkey, hdg]
  have hK : bigKey.length = 16400 := by
    show (List.replicate 16400 'a').length = 16400
    exact List.length_replicate 16400 'a'
  have hlen : 16384 < (invalidValErr "DB" PyVal.vinf bigKey).length := by
    unfold invalidValErr
    simp only [strLen_append]
    omega
  have hfr := errFrame_byteLen_ge (invalidValErr "DB" PyVal.vinf bigKey)
  have hff : frameFits (errFrame (invalidValErr "DB" PyVal.vinf bigKey)) = false := by
    unfold frameFits
    apply decide_eq_false
    have hB : BLOCK_SIZE = 16384 := rfl
    omega
  exact ⟨rfl, hdisp, hlen, brokerStep_error_none hdisp hff⟩

/-- C1 (amended): every raised exception is caught and becomes the
`{'error': str(e)}` reply with the state byte set to RESPONCE whenever
that reply fits the frame.  The broker-generated Malformed/Unsupported
texts are truncated to 125 characters, and every other message except
the stored-value decode failure is bounded by the db path length plus a
constant; so with a path of at most 100 characters and every stored
value and pending iterator item decodable, every error reply fits and
the broker never crashes.  Without the decodability assumption the
untruncated Invalid Value text defeats the bound: see the
counterexample. -/
theorem C1_error_reply_amended (path : String) (kv : KV) (sl : BrokerSlot) (req : PyVal)
    (kv2 : KV) (sl2 : BrokerSlot) (e : String)
    (hpath : path.length ≤ 100)
    (hdec : ∀ p ∈ kv, pyDecodable p.2 = true)
    (hsl : ∀ pfx items, sl.iter = some (.running pfx items) →
      ∀ x ∈ items, pyDecodable x.2 = true)
    (herr : dispatch path kv sl req = (kv2, sl2, Except.error e)) :
    e.length ≤ path.length + 152 ∧
    frameFits (errFrame e) = true ∧
    brokerStep path kv sl req = some (kv2, sl2, errFrame e, STATE_RESPONCE) := by
  have hlen : e.length ≤ path.length + 152 :=
    dispatch_error_len hdec hsl (by rw [herr])
  have hbyte := errFrame_byteLen_le e
  have hfit : frameFits (errFrame e) = true := by
    unfold frameFits
    simp only [decide_eq_true_eq]
    have hB : BLOCK_SIZE = 16384 := rfl
    omega
  refine ⟨hlen, hfit, ?_⟩
  simp only [brokerStep, herr]
  rw [if_pos hfit]

/-- Witness for the amended C1: a malformed (non-dict) request on the
default path, an all-decodable (empty) store and an idle slot. -/
theorem C1_error_reply_amended_witness :
    ("DB" : String).length ≤ 100 ∧
    dispatch "DB" [] ⟨none, none⟩ PyVal.vnone
      = ([], ⟨none, none⟩, Except.error (mMalformed PyVal.vnone)) ∧
    brokerStep "DB" [] ⟨none, none⟩ PyVal.vnone
      = some ([], ⟨none, none⟩, errFrame (mMalformed PyVal.vnone), STATE_RESPONCE) :=
  ⟨by decide, rfl,
    (C1_error_reply_amended "DB" [] ⟨none, none⟩ PyVal.vnone [] ⟨none, none⟩
      (mMalformed PyVal.vnone) (by decide)
      (fun p hp => absurd hp (List.not_mem_nil p))
      (fun pfx items h => Option.noConfusion h) rfl).2.2⟩

/-- C7: the broker keeps at most one open iterator session per slot: an
`iterator` request on a slot whose session is open is answered with the
`Nesting iterators` error and leaves the database, the slot, and in
particular the existing session unchanged; a `close` request always
answers `True` and clears the session whether or not one was open
(idempotent); and on a slot with no session (such as the slot a `close`
just produced) an `iterator` request succeeds with `True`. -/
theorem C7_iterator_isolation (path : String) (kv : KV) (sl : BrokerSlot)
    (entries : List (PyVal × PyVal)) :
    (reqGet entries "method" = PyVal.vstr "iterator" →
      (∀ it, sl.iter = some it →
        dispatch path kv sl (.vdict entries) = (kv, sl, Except.error mNesting)) ∧
      (sl.iter = none →
        dispatch path kv sl (.vdict entries) =
          (kv, { sl with iter := some (.fresh (reqGet entries "prefix")
              (reqGet entries "reverse") (reqGet entries "seek")) },
            Except.ok (PyVal.vbool true)))) ∧
    (reqGet entries "method" = PyVal.vstr "close" →
      dispatch path kv sl (.vdict entries)
        = (kv, { sl with iter := none }, Except.ok (PyVal.vbool true)) ∧
      ∀ entries2 : List (PyVal × PyVal),
        reqGet entries2 "method" = PyVal.vstr "iterator" →
        (dispatch path kv ((dispatch path kv sl (.vdict entries)).2.1)
          (.vdict entries2)).2.2 = Except.ok (PyVal.vbool true)) := by
  constructor
  · intro hm
    have hstep : dispatch path kv sl (.vdict entries) =
        doIterator kv sl (reqGet entries "prefix") (reqGet entries "reverse")
          (reqGet entries "seek") := by
      simp only [dispatch, hm, isMethod]
      rw [if_neg (by decide), if_neg (by decide), if_neg (by decide), if_pos (by decide)]
    constructor
    · intro it hit
      rw [hstep]
      simp only [doIterator, hit]
    · intro hnone
      rw [hstep]
      simp only [doIterator, hnone]
  · intro hm
    have hcl : dispatch path kv sl (.vdict entries) = doClose kv sl := by
      simp only [dispatch, hm, isMethod]
      rw [if_neg (by decide), if_neg (by decide), if_neg (by decide), if_neg (by decide),
        if_neg (by decide), if_pos (by decide)]
    constructor
    · rw [hcl]
      rfl
    · intro entries2 hm2
      rw [hcl]
      have hstep2 : dispatch path kv { sl with iter := none } (.vdict entries2) =
          doIterator kv { sl with iter := none } (reqGet entries2 "prefix")
            (reqGet entries2 "reverse") (reqGet entries2 "seek") := by
        simp only [dispatch, hm2, isMethod]
        rw [if_neg (by decide), if_neg (by decide), if_neg (by decide), if_pos (by decide)]
      show (dispatch path kv { sl with iter := none } (.vdict entries2)).2.2
        = Except.ok (PyVal.vbool true)
      rw [hstep2]
      rfl

/-- Witness for C7: with an open (exhausted) session the second
`iterator` request is refused and the slot is untouched. -/
theorem C7_iterator_isolation_witness :
    reqGet [((PyVal.vstr "method"), (PyVal.vstr "iterator"))] "method"
      = PyVal.vstr "iterator" ∧
    dispatch "DB" [] ⟨some IterSt.dead, none⟩
        (.vdict [((PyVal.vstr "method"), (PyVal.vstr "iterator"))])
      = ([], ⟨some IterSt.dead, none⟩, Except.error mNesting) :=
  ⟨rfl, ((C7_iterator_isolation "DB" [] ⟨some IterSt.dead, none⟩
      [((PyVal.vstr "method"), (PyVal.vstr "iterator"))]).1 rfl).1 IterSt.dead rfl⟩

end Plyvelmp

